import Mathlib

set_option maxRecDepth 100000

/-!
# divmagic: magic numbers for division by constants

A shallow embedding of `src/divmagic.c`.  The program is compiled for one
word size `BITS` (32 or 64); here the word size is the parameter `W`.

* `uint_t` values are natural numbers below `2 ^ W`; every arithmetic
  operation of the source on them is followed by an explicit `% 2 ^ W`
  (`uadd`, `usub`, `umul`).
* `sint_t` values are integers in `[-2 ^ (W-1), 2 ^ (W-1))`; an operation
  of the source on them is followed by `wrapS`, the two's complement
  wrap-around the program relies on.
* The two `do ... while` loops and the `while` loop are functions with a
  fuel argument that return `none` when the fuel runs out before the
  loop condition fails.
-/

namespace Divmagic

/-! ## Machine arithmetic -/

/-- The macro `MAX_UINT`. -/
def MAX_UINT (W : Nat) : Nat := 2 ^ W - 1

/-- The macro `MAX_INT`. -/
def MAX_INT (W : Nat) : Nat := 2 ^ (W - 1) - 1

/-- The macro `MAX_POW2`, that is `1 << (BITS-1)`. -/
def MAX_POW2 (W : Nat) : Nat := 2 ^ (W - 1)

/-- Addition of two `uint_t`. -/
def uadd (W a b : Nat) : Nat := (a + b) % 2 ^ W

/-- Subtraction of two `uint_t` (both below `2 ^ W`). -/
def usub (W a b : Nat) : Nat := (a + (2 ^ W - b % 2 ^ W)) % 2 ^ W

/-- Multiplication of two `uint_t`. -/
def umul (W a b : Nat) : Nat := (a * b) % 2 ^ W

/-- Conversion of a `sint_t` to `uint_t`: the bit pattern. -/
def toU (W : Nat) (z : Int) : Nat := (z % 2 ^ W).toNat

/-- Wrap an integer to the `sint_t` with the same low `W` bits. -/
def wrapS (W : Nat) (z : Int) : Int :=
  (z + 2 ^ (W - 1)) % 2 ^ W - 2 ^ (W - 1)

/-- Conversion of a `uint_t` to `sint_t`. -/
def toS (W : Nat) (u : Nat) : Int := wrapS W (u : Int)

/-! ## Result records -/

/-- The record `struct ms`: magic number and shift amount. -/
structure ms where
  M : Int
  s : Int
deriving DecidableEq, Repr

/-- The record `struct mu`: magic number, shift amount and add indicator. -/
structure mu where
  M : Nat
  s : Int
  a : Int
deriving DecidableEq, Repr

/-! ## Signed magic number: `divmagic` -/

/-- The loop variables `p, q1, r1, q2, r2` of `divmagic`. -/
structure SState where
  p : Int
  q1 : Nat
  r1 : Nat
  q2 : Nat
  r2 : Nat
deriving DecidableEq, Repr

/-- One execution of the body of the `do ... while` loop of `divmagic`
(lines 117-127). -/
def sstep (W ad anc : Nat) (st : SState) : SState :=
  let p := st.p + 1
  let q1 := umul W 2 st.q1
  let r1 := umul W 2 st.r1
  let q1r1 : Nat × Nat := if r1 ≥ anc then (uadd W q1 1, usub W r1 anc) else (q1, r1)
  let q2 := umul W 2 st.q2
  let r2 := umul W 2 st.r2
  let q2r2 : Nat × Nat := if r2 ≥ ad then (uadd W q2 1, usub W r2 ad) else (q2, r2)
  { p := p, q1 := q1r1.1, r1 := q1r1.2, q2 := q2r2.1, r2 := q2r2.2 }

/-- The loop condition of `divmagic` (lines 128-129), with
`delta = ad - r2`. -/
def scond (W ad : Nat) (st : SState) : Bool :=
  let delta := usub W ad st.r2
  decide (st.q1 < delta) || (decide (st.q1 = delta) && decide (st.r1 = 0))

/-- The `do ... while` loop of `divmagic`: the state at loop exit, or
`none` when `fuel` iterations were not enough. -/
def sloop (W ad anc : Nat) : Nat → SState → Option SState
  | 0, _ => none
  | fuel + 1, st =>
    let st1 := sstep W ad anc st
    if scond W ad st1 then sloop W ad anc fuel st1 else some st1

/-- The value of `ad` in `divmagic` (line 108). -/
def sAd (W : Nat) (d : Int) : Nat := toU W (wrapS W |d|)

/-- The value of `t` in `divmagic` (line 109). -/
def sT (W : Nat) (d : Int) : Nat := uadd W (MAX_POW2 W) (toU W d / 2 ^ (W - 1))

/-- The value of `anc` in `divmagic` (line 110). -/
def sAnc (W : Nat) (d : Int) : Nat :=
  usub W (usub W (sT W d) 1) (sT W d % sAd W d)

/-- The loop state of `divmagic` before the loop (lines 111-115). -/
def sinit (W : Nat) (d : Int) : SState :=
  let ad := sAd W d
  let anc := sAnc W d
  let q1 := MAX_POW2 W / anc
  let r1 := usub W (MAX_POW2 W) (umul W q1 anc)
  let q2 := MAX_POW2 W / ad
  let r2 := usub W (MAX_POW2 W) (umul W q2 ad)
  { p := (W : Int) - 1, q1 := q1, r1 := r1, q2 := q2, r2 := r2 }

/-- The result of `divmagic` from the state at loop exit (lines 131-134). -/
def sfinish (W : Nat) (d : Int) (st : SState) : ms :=
  let M0 := toS W (uadd W st.q2 1)
  { M := if d < 0 then wrapS W (-M0) else M0, s := st.p - W }

/-- The function `divmagic` for word size `W`. -/
def divmagic (W fuel : Nat) (d : Int) : Option ms :=
  (sloop W (sAd W d) (sAnc W d) fuel (sinit W d)).map (sfinish W d)

/-! ## Unsigned magic number: `divmagicu` -/

/-- The loop variables `p, q1, r1, q2, r2` and `magu.a` of `divmagicu`. -/
structure UState where
  p : Int
  q1 : Nat
  r1 : Nat
  q2 : Nat
  r2 : Nat
  a : Int
deriving DecidableEq, Repr

/-- One execution of the body of the `do ... while` loop of `divmagicu`
(lines 151-165). -/
def ustep (W d nc : Nat) (st : UState) : UState :=
  let p := st.p + 1
  let q1r1 : Nat × Nat :=
    if st.r1 ≥ usub W nc st.r1 then
      (uadd W (umul W 2 st.q1) 1, usub W (umul W 2 st.r1) nc)
    else
      (umul W 2 st.q1, umul W 2 st.r1)
  let aq2r2 : Int × Nat × Nat :=
    if uadd W st.r2 1 ≥ usub W d st.r2 then
      (if st.q2 ≥ MAX_INT W - 1 then 1 else st.a,
        uadd W (umul W 2 st.q2) 1, usub W (uadd W (umul W 2 st.r2) 1) d)
    else
      (if st.q2 ≥ MAX_POW2 W then 1 else st.a,
        umul W 2 st.q2, uadd W (umul W 2 st.r2) 1)
  { p := p, q1 := q1r1.1, r1 := q1r1.2, q2 := aq2r2.2.1, r2 := aq2r2.2.2, a := aq2r2.1 }

/-- The loop condition of `divmagicu` (lines 166-168), with
`delta = d - 1 - r2`. -/
def ucond (W d : Nat) (st : UState) : Bool :=
  let delta := usub W (usub W d 1) st.r2
  decide (st.p < 2 * (W : Int)) &&
    (decide (st.q1 < delta) || (decide (st.q1 = delta) && decide (st.r1 = 0)))

/-- The `do ... while` loop of `divmagicu`: the state at loop exit, or
`none` when `fuel` iterations were not enough. -/
def uloop (W d nc : Nat) : Nat → UState → Option UState
  | 0, _ => none
  | fuel + 1, st =>
    let st1 := ustep W d nc st
    if ucond W d st1 then uloop W d nc fuel st1 else some st1

/-- The value of `nc` in `divmagicu` (line 144): `-1 - (-d)%d`. -/
def uNc (W d : Nat) : Nat := usub W (usub W 0 1) (usub W 0 d % d)

/-- The loop state of `divmagicu` before the loop (lines 143-149). -/
def uinit (W d : Nat) : UState :=
  let nc := uNc W d
  let q1 := MAX_POW2 W / nc
  let r1 := usub W (MAX_POW2 W) (umul W q1 nc)
  let q2 := MAX_INT W / d
  let r2 := usub W (MAX_INT W) (umul W q2 d)
  { p := (W : Int) - 1, q1 := q1, r1 := r1, q2 := q2, r2 := r2, a := 0 }

/-- The result of `divmagicu` from the state at loop exit (lines 170-172). -/
def ufinish (W : Nat) (st : UState) : mu :=
  { M := uadd W st.q2 1, s := st.p - W, a := st.a }

/-- The function `divmagicu` for word size `W`. -/
def divmagicu (W fuel : Nat) (d : Nat) : Option mu :=
  (uloop W d (uNc W d) fuel (uinit W d)).map (ufinish W)

/-! ## Multiplicative inverse: `mulinv` -/

/-- The `while` loop of `mulinv` (lines 179-180) on the variable `xn`,
counting the executions of the update `xn = xn * (2-t)`: the final `xn`
and the number of updates, or `none` when `fuel` was not enough. -/
def mloop (W : Nat) (d : Int) : Nat → Int → Nat → Option (Int × Nat)
  | 0, _, _ => none
  | fuel + 1, xn, k =>
    let t := wrapS W (d * xn)
    if t ≠ 1 then mloop W d fuel (wrapS W (xn * wrapS W (2 - t))) (k + 1)
    else some (xn, k)

/-- The function `mulinv` for word size `W`: the returned `uint_t`. -/
def mulinv (W fuel : Nat) (d : Int) : Option Nat :=
  (mloop W d fuel d 0).map (fun r => toU W r.1)

/-- The number of updates `xn = xn * (2-t)` that `mulinv` performs. -/
def mulinvSteps (W fuel : Nat) (d : Int) : Option Nat :=
  (mloop W d fuel d 0).map (fun r => r.2)

/-! ## Closed forms and reconstruction used in the statements -/

/-- The update `xn * (2 - t)` of `mulinv`, with `t = d * xn`. -/
def mnext (W : Nat) (d xn : Int) : Int := wrapS W (xn * wrapS W (2 - wrapS W (d * xn)))

/-- Closed form of the loop state of `divmagicu` at exponent `p`. -/
def uIdeal (W d nc p : Nat) : UState :=
  { p := (p : Int), q1 := (2 ^ p / nc) % 2 ^ W, r1 := 2 ^ p % nc,
    q2 := ((2 ^ p - 1) / d) % 2 ^ W, r2 := (2 ^ p - 1) % d,
    a := if 2 ^ W - 1 ≤ (2 ^ p - 1) / d then 1 else 0 }

/-- Closed form of the loop state of `divmagic` at exponent `p`. -/
def sIdeal (ad anc p : Nat) : SState :=
  { p := (p : Int), q1 := 2 ^ p / anc, r1 := 2 ^ p % anc, q2 := 2 ^ p / ad, r2 := 2 ^ p % ad }

/-- The multiply-shift-sign-correct reconstruction of a signed quotient from
a magic number `M` and a shift `s`: `q0` is the signed high word of `M * n`,
`n` is added when `d > 0` and `M < 0`, subtracted when `d < 0` and `M > 0`,
the result is shifted right by `s` and one is added when it is negative. -/
def signedQuotient (W : Nat) (M s d n : Int) : Int :=
  let q0 := M * n / 2 ^ W
  let q1 := if 0 < d ∧ M < 0 then q0 + n else if d < 0 ∧ 0 < M then q0 - n else q0
  let q := q1 / 2 ^ s.toNat
  q + (if q < 0 then 1 else 0)

/-- The state of `divmagic` after `k` executions of the loop body. -/
def sstate (W : Nat) (d : Int) (k : Nat) : SState :=
  Nat.iterate (sstep W (sAd W d) (sAnc W d)) k (sinit W d)

/-- The state of `divmagicu` after `k` executions of the loop body. -/
def ustate (W d k : Nat) : UState :=
  Nat.iterate (ustep W d (uNc W d)) k (uinit W d)

/-- The driver loop of `main` (lines 86-97) from the value `i` of the loop
variable on: the arguments of the calls `divmagic(i)` made within `fuel`
tests of the loop condition `i <= d2`, in order. -/
def mainLoop (W : Nat) (d2 : Int) : Nat → Int → List Int
  | 0, _ => []
  | fuel + 1, i =>
    if i ≤ d2 then
      if i = 0 then mainLoop W d2 fuel (wrapS W (i + 1))
      else i :: mainLoop W d2 fuel (wrapS W (i + 1))
    else []

/-- The calls `divmagic(i)` of `main` for the parsed bounds `d1`, `d2`
(lines 81-97): none when `d1 > d2`. -/
def mainCalls (W fuel : Nat) (d1 d2 : Int) : List Int :=
  if d1 > d2 then [] else mainLoop W d2 fuel d1

/-- The inverse computed with a fixed number `n` of updates
`x := x * (2 - d * x)` from `x0 = d`, as the specification proposes in place
of the convergence check of `mulinv`. -/
def mulinvFixed (W n : Nat) (d : Int) : Nat :=
  toU W (Nat.iterate (mnext W d) n d)

/-! ## Facts about the machine arithmetic -/

theorem two_pow_pred (W : Nat) (hW : 1 ≤ W) : (2 : Int) ^ W = 2 * 2 ^ (W - 1) := by
  obtain ⟨k, rfl⟩ : ∃ k, W = k + 1 := ⟨W - 1, by omega⟩
  simp [pow_succ, mul_comm]

theorem wrapS_sub_dvd (W : Nat) (z : Int) (_hW : 1 ≤ W) : (2 : Int) ^ W ∣ wrapS W z - z := by
  unfold wrapS
  refine ⟨-((z + 2 ^ (W - 1)) / 2 ^ W), ?_⟩
  have h := Int.emod_add_ediv (z + 2 ^ (W - 1)) (2 ^ W)
  linarith

theorem wrapS_range (W : Nat) (z : Int) (hW : 1 ≤ W) :
    -2 ^ (W - 1) ≤ wrapS W z ∧ wrapS W z < 2 ^ (W - 1) := by
  unfold wrapS
  have hT : (0 : Int) < 2 ^ W := by positivity
  have h1 := Int.emod_nonneg (z + 2 ^ (W - 1)) hT.ne'
  have h2 := Int.emod_lt_of_pos (z + 2 ^ (W - 1)) hT
  have h3 := two_pow_pred W hW
  constructor <;> linarith

theorem wrapS_eq_one_iff (W : Nat) (z : Int) (hW : 2 ≤ W) :
    wrapS W z = 1 ↔ (2 : Int) ^ W ∣ 1 - z := by
  have hd := wrapS_sub_dvd W z (by omega)
  constructor
  · intro h
    rw [h] at hd
    exact hd
  · intro h
    have h1 : (2 : Int) ^ W ∣ wrapS W z - 1 := by
      have := dvd_sub hd h
      have e : wrapS W z - z - (1 - z) = wrapS W z - 1 := by ring
      rwa [e] at this
    have hr := wrapS_range W z (by omega)
    have h3 := two_pow_pred W (by omega)
    have h4 : (2 : Int) ≤ 2 ^ (W - 1) := by
      obtain ⟨k, hk⟩ : ∃ k, W - 1 = k + 1 := ⟨W - 2, by omega⟩
      rw [hk, pow_succ]
      have : (1 : Int) ≤ 2 ^ k := one_le_pow₀ (by norm_num)
      linarith
    have h5 : wrapS W z - 1 = 0 := by
      apply Int.eq_zero_of_abs_lt_dvd h1
      rw [abs_lt]
      constructor <;> linarith [hr.1, hr.2]
    linarith

/-! ## The Newton iteration of `mulinv` -/

theorem mnext_sub_dvd (W : Nat) (d x : Int) (hW : 1 ≤ W) :
    (2 : Int) ^ W ∣ mnext W d x - x * (2 - d * x) := by
  unfold mnext
  obtain ⟨a, ha⟩ := wrapS_sub_dvd W (d * x) hW
  obtain ⟨b, hb⟩ := wrapS_sub_dvd W (2 - wrapS W (d * x)) hW
  obtain ⟨c, hc⟩ := wrapS_sub_dvd W (x * wrapS W (2 - wrapS W (d * x))) hW
  refine ⟨c + x * b - x * a, ?_⟩
  have e1 : wrapS W (d * x) = d * x + 2 ^ W * a := by linarith
  have e2 : wrapS W (2 - wrapS W (d * x)) = 2 - wrapS W (d * x) + 2 ^ W * b := by linarith
  have e3 : wrapS W (x * wrapS W (2 - wrapS W (d * x)))
      = x * wrapS W (2 - wrapS W (d * x)) + 2 ^ W * c := by linarith
  rw [e3, e2, e1]
  ring

theorem newton_step (W e : Nat) (d x : Int) (hW : 1 ≤ W)
    (h : (2 : Int) ^ e ∣ 1 - d * x) (e' : Nat) (hle : e' ≤ 2 * e) (hle' : e' ≤ W) :
    (2 : Int) ^ e' ∣ 1 - d * mnext W d x := by
  have h1 : (2 : Int) ^ (2 * e) ∣ (1 - d * x) * (1 - d * x) := by
    rw [two_mul, pow_add]
    exact mul_dvd_mul h h
  have h2 : (2 : Int) ^ e' ∣ (1 - d * x) * (1 - d * x) :=
    dvd_trans (pow_dvd_pow 2 hle) h1
  have h3 : (2 : Int) ^ e' ∣ mnext W d x - x * (2 - d * x) :=
    dvd_trans (pow_dvd_pow 2 hle') (mnext_sub_dvd W d x hW)
  have h4 := dvd_sub h2 (Dvd.dvd.mul_left h3 d)
  have e : (1 - d * x) * (1 - d * x) - d * (mnext W d x - x * (2 - d * x))
      = 1 - d * mnext W d x := by ring
  rwa [e] at h4

theorem odd_sq_dvd (d : Int) (hd : d % 2 = 1) : (2 : Int) ^ 3 ∣ 1 - d * d := by
  obtain ⟨k, hk⟩ : ∃ k, d = 2 * k + 1 := ⟨d / 2, by omega⟩
  obtain ⟨j, hj⟩ : ∃ j, k * (k + 1) = 2 * j := by
    have : k * (k + 1) % 2 = 0 := by
      rcases Int.emod_two_eq_zero_or_one k with h | h
      · rw [Int.mul_emod, h]; simp
      · have h2 : (k + 1) % 2 = 0 := by omega
        rw [Int.mul_emod, h2]; simp
    exact ⟨k * (k + 1) / 2, by omega⟩
  refine ⟨-j, ?_⟩
  rw [hk]
  have : (2 * k + 1) * (2 * k + 1) = 4 * (k * (k + 1)) + 1 := by ring
  rw [this, hj]
  ring

theorem mloop_spec (W : Nat) (d : Int) (hW : 2 ≤ W) :
    ∀ (fuel : Nat) (x : Int) (k e : Nat), 1 ≤ e → (2 : Int) ^ e ∣ 1 - d * x →
      W ≤ e * 2 ^ fuel →
      ∃ x' k', mloop W d (fuel + 1) x k = some (x', k') ∧
        (2 : Int) ^ W ∣ 1 - d * x' ∧ k ≤ k' ∧ k' ≤ k + fuel := by
  intro fuel
  induction fuel with
  | zero =>
    intro x k e _ h hfe
    have h1 : (2 : Int) ^ W ∣ 1 - d * x := dvd_trans (pow_dvd_pow 2 (by simpa using hfe)) h
    have h2 := (wrapS_eq_one_iff W (d * x) hW).2 h1
    exact ⟨x, k, by simp [mloop, h2], h1, le_refl _, le_refl _⟩
  | succ f ih =>
    intro x k e he h hfe
    by_cases ht : wrapS W (d * x) = 1
    · have h1 := (wrapS_eq_one_iff W (d * x) hW).1 ht
      refine ⟨x, k, ?_, h1, le_refl _, by omega⟩
      rw [mloop]
      simp [ht]
    · have hn := newton_step W e d x (by omega) h (min (2 * e) W)
        (Nat.min_le_left _ _) (Nat.min_le_right _ _)
      have hfe' : W ≤ min (2 * e) W * 2 ^ f := by
        rcases Nat.le_total (2 * e) W with h1 | h1
        · rw [Nat.min_eq_left h1]
          rw [pow_succ] at hfe
          nlinarith
        · rw [Nat.min_eq_right h1]
          have : 1 ≤ 2 ^ f := Nat.one_le_two_pow
          nlinarith
      obtain ⟨x', k', h1, h2, h3, h4⟩ := ih (mnext W d x) (k + 1) (min (2 * e) W)
        (by omega) hn hfe'
      refine ⟨x', k', ?_, h2, by omega, by omega⟩
      rw [mloop]
      simp only [ne_eq, ht, not_false_eq_true, if_true]
      exact h1

theorem mloop_mono (W : Nat) (d : Int) :
    ∀ (fuel j : Nat) (x : Int) (k : Nat) (r : Int × Nat),
      mloop W d fuel x k = some r → mloop W d (fuel + j) x k = some r := by
  intro fuel
  induction fuel with
  | zero => intro j x k r h; simp [mloop] at h
  | succ f ih =>
    intro j x k r h
    have e : f + 1 + j = (f + j) + 1 := by omega
    rw [e]
    rw [mloop] at h ⊢
    by_cases ht : wrapS W (d * x) = 1
    · simpa [ht] using h
    · simp only [ne_eq, ht, not_false_eq_true, if_true] at h ⊢
      exact ih j _ _ r h

theorem mloop_bounded (W n : Nat) (d : Int) (fuel : Nat) (hW : 2 ≤ W) (hd : d % 2 = 1)
    (hn : W ≤ 3 * 2 ^ n) (hf : n + 1 ≤ fuel) :
    ∃ x k, mloop W d fuel d 0 = some (x, k) ∧ (2 : Int) ^ W ∣ 1 - d * x ∧ k ≤ n := by
  obtain ⟨x, k, h1, h2, _, h4⟩ := mloop_spec W d hW n d 0 3 (by norm_num) (odd_sq_dvd d hd) hn
  refine ⟨x, k, ?_, h2, by omega⟩
  have := mloop_mono W d (n + 1) (fuel - (n + 1)) d 0 _ h1
  rwa [show n + 1 + (fuel - (n + 1)) = fuel by omega] at this

theorem toU_lt (W : Nat) (z : Int) : toU W z < 2 ^ W := by
  unfold toU
  have hT : (0 : Int) < 2 ^ W := by positivity
  have h2 := Int.emod_lt_of_pos z hT
  have h1 := Int.emod_nonneg z hT.ne'
  zify
  rw [Int.toNat_of_nonneg h1]
  exact_mod_cast h2

theorem toU_cast (W : Nat) (z : Int) : ((toU W z : Nat) : Int) = z % 2 ^ W := by
  unfold toU
  have hT : (0 : Int) < 2 ^ W := by positivity
  exact Int.toNat_of_nonneg (Int.emod_nonneg z hT.ne')

theorem toU_sub_dvd (W : Nat) (z : Int) : (2 : Int) ^ W ∣ (toU W z : Int) - z := by
  rw [toU_cast]
  refine ⟨-(z / 2 ^ W), ?_⟩
  have h := Int.emod_add_ediv z (2 ^ W)
  linarith

theorem emod_eq_one_of_dvd (T z : Int) (hT : 1 < T) (h : T ∣ 1 - z) : z % T = 1 := by
  obtain ⟨c, hc⟩ := h
  have e : z = 1 + T * (-c) := by linarith
  rw [e, Int.add_mul_emod_self_left]
  exact Int.emod_eq_of_lt (by norm_num) hT

theorem dvd_of_emod_eq_one (T z : Int) (h : z % T = 1) : T ∣ 1 - z := by
  refine ⟨-(z / T), ?_⟩
  have := Int.emod_add_ediv z T
  linarith

theorem one_lt_two_pow_int (W : Nat) (hW : 1 ≤ W) : (1 : Int) < 2 ^ W := by
  have := two_pow_pred W hW
  have : (1 : Int) ≤ 2 ^ (W - 1) := one_le_pow₀ (by norm_num)
  linarith

/-- Two inverses of `d` modulo `2 ^ W` below `2 ^ W` are equal. -/
theorem inverse_unique (W : Nat) (d : Int) (x y : Nat) (hx : x < 2 ^ W) (hy : y < 2 ^ W)
    (h1 : (2 : Int) ^ W ∣ 1 - d * x) (h2 : (2 : Int) ^ W ∣ 1 - d * y) : y = x := by
  have h3 : (2 : Int) ^ W ∣ (y : Int) - x := by
    have := dvd_sub (Dvd.dvd.mul_left h1 (y : Int)) (Dvd.dvd.mul_left h2 (x : Int))
    have e : (y : Int) * (1 - d * x) - x * (1 - d * y) = y - x := by ring
    rwa [e] at this
  have h4 : (y : Int) - x = 0 := by
    apply Int.eq_zero_of_abs_lt_dvd h3
    have hx' : (x : Int) < 2 ^ W := by exact_mod_cast hx
    have hy' : (y : Int) < 2 ^ W := by exact_mod_cast hy
    rw [abs_lt]
    constructor <;> linarith [Int.natCast_nonneg x, Int.natCast_nonneg y]
  omega

theorem mulinv_spec (W n : Nat) (d : Int) (fuel : Nat) (hW : 2 ≤ W) (hd : d % 2 = 1)
    (hn : W ≤ 3 * 2 ^ n) (hf : n + 1 ≤ fuel) :
    ∃ x, mulinv W fuel d = some x ∧ x < 2 ^ W ∧ (2 : Int) ^ W ∣ 1 - d * x := by
  obtain ⟨x, k, h1, h2, _⟩ := mloop_bounded W n d fuel hW hd hn hf
  refine ⟨toU W x, by simp [mulinv, h1], toU_lt W x, ?_⟩
  have := dvd_sub h2 (Dvd.dvd.mul_left (toU_sub_dvd W x) d)
  have e : 1 - d * x - d * ((toU W x : Int) - x) = 1 - d * (toU W x : Int) := by ring
  rwa [e] at this

/-- C3. For a word size of 32 or 64 bits and every odd `d`, the loop of
`mulinv` terminates (six units of fuel are enough) and the returned `x`
satisfies `d * x ≡ 1 (mod 2^W)`; for `d = 3` at `W = 32` the result is
`0xAAAAAAAB`. -/
theorem mulinv_correct (W : Nat) (d : Int) (fuel : Nat) (hW : W = 32 ∨ W = 64)
    (hd : d % 2 = 1) (hlo : -2 ^ (W - 1) ≤ d) (hhi : d < 2 ^ (W - 1)) (hf : 6 ≤ fuel) :
    (∃ x : Nat, mulinv W fuel d = some x ∧ x < 2 ^ W ∧ (d * (x : Int)) % 2 ^ W = 1) ∧
      mulinv 32 fuel 3 = some 0xAAAAAAAB := by
  constructor
  · obtain ⟨x, h1, h2, h3⟩ := mulinv_spec W 5 d fuel (by omega) hd
      (by rcases hW with h | h <;> subst h <;> norm_num) (by omega)
    exact ⟨x, h1, h2, emod_eq_one_of_dvd _ _ (one_lt_two_pow_int W (by omega)) h3⟩
  · obtain ⟨x, h1, h2, h3⟩ := mulinv_spec 32 5 3 fuel (by norm_num) (by norm_num)
      (by norm_num) (by omega)
    have := inverse_unique 32 3 x 0xAAAAAAAB h2 (by norm_num) h3 (by norm_num)
    rw [h1, this]

theorem mulinv_correct_witness :
    (∃ x : Nat, mulinv 32 6 7 = some x ∧ x < 2 ^ 32 ∧ ((7 : Int) * (x : Int)) % 2 ^ 32 = 1) ∧
      mulinv 32 6 3 = some 0xAAAAAAAB :=
  mulinv_correct 32 7 6 (Or.inl rfl) (by decide) (by decide) (by decide) (by decide)

/-! ## Facts about `uint_t` arithmetic -/

theorem uadd_eq (W a b : Nat) (h : a + b < 2 ^ W) : uadd W a b = a + b :=
  Nat.mod_eq_of_lt h

theorem umul_eq (W a b : Nat) (h : a * b < 2 ^ W) : umul W a b = a * b :=
  Nat.mod_eq_of_lt h

theorem usub_eq (W a b : Nat) (hb : b ≤ a) (ha : a < 2 ^ W) : usub W a b = a - b := by
  unfold usub
  rw [Nat.mod_eq_of_lt (show b < 2 ^ W by omega)]
  rw [show a + (2 ^ W - b) = (a - b) + 2 ^ W by omega, Nat.add_mod_right]
  exact Nat.mod_eq_of_lt (by omega)

/-- Subtraction after a wrapped computation: when `x` holds `X` modulo
`2 ^ W` and the exact difference `X - b` fits, the result is exact. -/
theorem usub_mod (W X b : Nat) (hb : b ≤ X) (hX : X - b < 2 ^ W) (hb' : b < 2 ^ W) :
    usub W (X % 2 ^ W) b = X - b := by
  unfold usub
  rw [Nat.mod_eq_of_lt hb', Nat.mod_add_mod]
  rw [show X + (2 ^ W - b) = (X - b) + 2 ^ W by omega, Nat.add_mod_right]
  exact Nat.mod_eq_of_lt hX

theorem uadd_mod (W X b : Nat) : uadd W (X % 2 ^ W) b = (X + b) % 2 ^ W := by
  unfold uadd
  rw [Nat.mod_add_mod]

theorem umul_mod (W a X : Nat) : umul W a (X % 2 ^ W) = (a * X) % 2 ^ W := by
  unfold umul
  rw [Nat.mul_mod, Nat.mod_mod, ← Nat.mul_mod]

theorem two_pow_pred_nat (W : Nat) (hW : 1 ≤ W) : 2 ^ W = 2 * 2 ^ (W - 1) := by
  obtain ⟨k, rfl⟩ : ∃ k, W = k + 1 := ⟨W - 1, by omega⟩
  simp [pow_succ, mul_comm]

/-! ## The multiply-and-shift identity -/

/-- Floor form: with `m * d = P + delta`, the product `m * n` divided by `P`
is `n / d` as soon as `delta * n` is small enough. -/
theorem magic_floor (P d m delta n : Nat) (hd : 1 ≤ d) (hm : m * d = P + delta)
    (h1 : n % d = d - 1 → delta * n < P) (h2 : delta * n < 2 * P) :
    m * n / P = n / d := by
  have hP : 0 < P := by
    rcases Nat.eq_zero_or_pos P with h | h
    · subst h; omega
    · exact h
  have hn := Nat.div_add_mod n d
  have hr : n % d < d := Nat.mod_lt _ (by omega)
  have key : delta * n < (d - n % d) * P := by
    by_cases hc : n % d = d - 1
    · have := h1 hc
      have e : d - n % d = 1 := by omega
      rw [e]; omega
    · have e : 2 ≤ d - n % d := by omega
      calc delta * n < 2 * P := h2
        _ ≤ (d - n % d) * P := Nat.mul_le_mul_right P e
  apply Nat.div_eq_of_lt_le
  · -- (n / d) * P ≤ m * n
    apply Nat.le_of_mul_le_mul_right _ (show 0 < d by omega)
    calc n / d * P * d = P * (d * (n / d)) := by ring
      _ ≤ P * n := Nat.mul_le_mul_left P (by omega)
      _ ≤ (P + delta) * n := Nat.mul_le_mul_right n (by omega)
      _ = m * n * d := by rw [← hm]; ring
  · -- m * n < (n / d + 1) * P
    refine Nat.lt_of_mul_lt_mul_right (?_ : m * n * d < (n / d + 1) * P * d)
    have e1 : m * n * d = P * n + delta * n := by
      calc m * n * d = (m * d) * n := by ring
        _ = P * n + delta * n := by rw [hm]; ring
    have e2 : (n / d + 1) * P * d = P * (d * (n / d)) + d * P := by ring
    have e3 : (d - n % d) * P + n % d * P = d * P := by
      rw [← Nat.add_mul]; congr 1; omega
    have e4 : P * n = P * (d * (n / d)) + n % d * P := by
      conv_lhs => rw [← hn]
      ring
    rw [e1, e2, e4]
    omega

/-- Ceiling form, used for dividends of the opposite sign. -/
theorem magic_ceil (P d m delta n : Nat) (hd : 1 ≤ d) (hm : m * d = P + delta)
    (hdelta : 1 ≤ delta) (hn1 : 1 ≤ n)
    (h1 : n % d = d - 1 → delta * n ≤ P) (h2 : delta * n ≤ 2 * P) :
    n / d * P < m * n ∧ m * n ≤ (n / d + 1) * P := by
  have hn := Nat.div_add_mod n d
  have hr : n % d < d := Nat.mod_lt _ (by omega)
  have key : delta * n ≤ (d - n % d) * P := by
    by_cases hc : n % d = d - 1
    · have := h1 hc
      have e : d - n % d = 1 := by omega
      rw [e]; omega
    · have e : 2 ≤ d - n % d := by omega
      calc delta * n ≤ 2 * P := h2
        _ ≤ (d - n % d) * P := Nat.mul_le_mul_right P e
  constructor
  · refine Nat.lt_of_mul_lt_mul_right (?_ : n / d * P * d < m * n * d)
    calc n / d * P * d = P * (d * (n / d)) := by ring
      _ ≤ P * n := Nat.mul_le_mul_left P (by omega)
      _ < P * n + delta * n := by
        have : 0 < delta * n := Nat.mul_pos (by omega) (by omega)
        omega
      _ = (P + delta) * n := by ring
      _ = m * n * d := by rw [← hm]; ring
  · apply Nat.le_of_mul_le_mul_right _ (show 0 < d by omega)
    have e1 : m * n * d = P * n + delta * n := by
      calc m * n * d = (m * d) * n := by ring
        _ = P * n + delta * n := by rw [hm]; ring
    have e2 : (n / d + 1) * P * d = P * (d * (n / d)) + d * P := by ring
    have e3 : (d - n % d) * P + n % d * P = d * P := by
      rw [← Nat.add_mul]; congr 1; omega
    have e4 : P * n = P * (d * (n / d)) + n % d * P := by
      conv_lhs => rw [← hn]
      ring
    rw [e1, e2, e4]
    omega

/-! ## The unsigned magic number -/

theorem uNc_eq (W d : Nat) (hd1 : 1 ≤ d) (hd : d < 2 ^ W) :
    uNc W d = 2 ^ W - 1 - 2 ^ W % d := by
  have hT : 2 ≤ 2 ^ W := by omega
  have e1 : usub W 0 1 = 2 ^ W - 1 := by
    unfold usub
    rw [Nat.mod_eq_of_lt (show 1 < 2 ^ W by omega), Nat.zero_add]
    exact Nat.mod_eq_of_lt (by omega)
  have e2 : usub W 0 d = 2 ^ W - d := by
    unfold usub
    rw [Nat.mod_eq_of_lt hd, Nat.zero_add]
    exact Nat.mod_eq_of_lt (by omega)
  have e3 : (2 ^ W - d) % d = 2 ^ W % d := by
    conv_rhs => rw [show 2 ^ W = (2 ^ W - d) + d by omega]
    rw [Nat.add_mod_right]
  have hr : 2 ^ W % d < d := Nat.mod_lt _ (by omega)
  unfold uNc
  rw [e1, e2, e3]
  exact usub_eq W _ _ (by omega) (by omega)

theorem uNc_facts (W d : Nat) (hW : 1 ≤ W) (hd1 : 1 ≤ d) (hd : d < 2 ^ W) :
    (uNc W d + 1) % d = 0 ∧ uNc W d < 2 ^ W ∧ 2 ^ W ≤ uNc W d + d ∧ d ≤ uNc W d + 1 ∧
      2 ^ (W - 1) ≤ uNc W d := by
  have hT := two_pow_pred_nat W hW
  have hH : 1 ≤ 2 ^ (W - 1) := Nat.one_le_two_pow
  have hr : 2 ^ W % d < d := Nat.mod_lt _ (by omega)
  have hdm := Nat.div_add_mod (2 ^ W) d
  have hq : 1 ≤ 2 ^ W / d := (Nat.one_le_div_iff (by omega)).2 (by omega)
  have hq' : d ≤ d * (2 ^ W / d) := Nat.le_mul_of_pos_right d hq
  have e : uNc W d + 1 = d * (2 ^ W / d) := by rw [uNc_eq W d hd1 hd]; omega
  refine ⟨by rw [e]; exact Nat.mul_mod_right _ _, by rw [uNc_eq W d hd1 hd]; omega,
    by omega, by omega, by omega⟩

/-- A value with remainder `d - 1` that is below the next multiple of `d`
after `c + 1` is at most `c`. -/
theorem le_of_rem_pred (d c n : Nat) (hd : 1 ≤ d) (hc : (c + 1) % d = 0)
    (hn : n % d = d - 1) (hlt : n < c + d) : n ≤ c := by
  by_contra hcon
  have h1 : d ∣ c + 1 := Nat.dvd_of_mod_eq_zero hc
  have h2 : d ∣ n + 1 := by
    apply Nat.dvd_of_mod_eq_zero
    rw [Nat.add_mod, hn]
    rcases Nat.lt_or_ge 1 d with h | h
    · rw [Nat.mod_eq_of_lt h, show d - 1 + 1 = d by omega, Nat.mod_self]
    · have : d = 1 := by omega
      subst this; simp
  have h3 : d ∣ (n + 1) - (c + 1) := Nat.dvd_sub' h2 h1
  have h4 := Nat.le_of_dvd (by omega) h3
  omega

theorem div_mod_double (X c : Nat) (hc : 0 < c) :
    (2 * X / c = if c ≤ 2 * (X % c) then 2 * (X / c) + 1 else 2 * (X / c)) ∧
    (2 * X % c = if c ≤ 2 * (X % c) then 2 * (X % c) - c else 2 * (X % c)) := by
  have h := Nat.div_add_mod X c
  have hr : X % c < c := Nat.mod_lt _ hc
  split_ifs with hle
  · have e : 2 * X = (2 * (X % c) - c) + c * (2 * (X / c) + 1) := by
      have : c * (2 * (X / c) + 1) = 2 * (c * (X / c)) + c := by ring
      omega
    rw [e, Nat.add_mul_div_left _ _ hc, Nat.add_mul_mod_self_left,
      Nat.div_eq_of_lt (by omega), Nat.mod_eq_of_lt (by omega)]
    omega
  · have e : 2 * X = 2 * (X % c) + c * (2 * (X / c)) := by
      have : c * (2 * (X / c)) = 2 * (c * (X / c)) := by ring
      omega
    rw [e, Nat.add_mul_div_left _ _ hc, Nat.add_mul_mod_self_left,
      Nat.div_eq_of_lt (by omega), Nat.mod_eq_of_lt (by omega)]
    omega

theorem div_mod_double_succ (Y c : Nat) (hc : 0 < c) :
    ((2 * Y + 1) / c = if c ≤ 2 * (Y % c) + 1 then 2 * (Y / c) + 1 else 2 * (Y / c)) ∧
    ((2 * Y + 1) % c = if c ≤ 2 * (Y % c) + 1 then 2 * (Y % c) + 1 - c
      else 2 * (Y % c) + 1) := by
  have h := Nat.div_add_mod Y c
  have hr : Y % c < c := Nat.mod_lt _ hc
  split_ifs with hle
  · have e : 2 * Y + 1 = (2 * (Y % c) + 1 - c) + c * (2 * (Y / c) + 1) := by
      have : c * (2 * (Y / c) + 1) = 2 * (c * (Y / c)) + c := by ring
      omega
    rw [e, Nat.add_mul_div_left _ _ hc, Nat.add_mul_mod_self_left,
      Nat.div_eq_of_lt (by omega), Nat.mod_eq_of_lt (by omega)]
    omega
  · have e : 2 * Y + 1 = (2 * (Y % c) + 1) + c * (2 * (Y / c)) := by
      have : c * (2 * (Y / c)) = 2 * (c * (Y / c)) := by ring
      omega
    rw [e, Nat.add_mul_div_left _ _ hc, Nat.add_mul_mod_self_left,
      Nat.div_eq_of_lt (by omega), Nat.mod_eq_of_lt (by omega)]
    omega

theorem two_pow_succ_pred (p : Nat) : 2 ^ (p + 1) - 1 = 2 * (2 ^ p - 1) + 1 := by
  have : 1 ≤ 2 ^ p := Nat.one_le_two_pow
  rw [pow_succ]; omega

/-- No divisor below `2 ^ W` has `2 ^ W - 3` as the quotient of `2 ^ p - 1`
for `p ≤ 2 * W`: the test `q2 >= MAX_INT-1` never sets the add indicator for
a multiplier that fits. -/
theorem quotient_ne (W d p : Nat) (hW : 4 ≤ W) (hd : d < 2 ^ W)
    (hp : W ≤ p) (hp2 : p ≤ 2 * W) : (2 ^ p - 1) / d ≠ 2 ^ W - 3 := by
  intro h
  have hT16 : 16 ≤ 2 ^ W := by
    calc 16 = 2 ^ 4 := by norm_num
      _ ≤ 2 ^ W := Nat.pow_le_pow_right (by norm_num) hW
  have hd0 : 0 < d := by
    rcases Nat.eq_zero_or_pos d with h0 | h0
    · subst h0; simp at h; omega
    · exact h0
  obtain ⟨e, rfl⟩ : ∃ e, p = W + e := ⟨p - W, by omega⟩
  have he : e ≤ W := by omega
  have hP : 2 ^ (W + e) = 2 ^ e * 2 ^ W := by rw [pow_add]; ring
  have hD1 : 1 ≤ 2 ^ e := Nat.one_le_two_pow
  have h1 : d * (2 ^ W - 3) ≤ 2 ^ (W + e) - 1 := by
    rw [← h]; exact Nat.mul_div_le _ _
  have h2 : 2 ^ (W + e) - 1 < d * (2 ^ W - 3 + 1) := by
    rw [← h]; exact Nat.lt_mul_div_succ _ hd0
  -- the shape of `2 ^ e` relative to `2 ^ W`
  have hcase : 2 ^ W ≤ 2 ^ e ∨ 2 * 2 ^ e = 2 ^ W ∨ 4 * 2 ^ e ≤ 2 ^ W := by
    rcases Nat.lt_or_ge e (W - 1) with h3 | h3
    · right; right
      calc 4 * 2 ^ e = 2 ^ (e + 2) := by rw [pow_add]; ring
        _ ≤ 2 ^ W := Nat.pow_le_pow_right (by norm_num) (by omega)
    · rcases Nat.eq_or_lt_of_le h3 with h4 | h4
      · right; left
        rw [← h4, two_pow_pred_nat W (by omega)]
      · left
        exact Nat.pow_le_pow_right (by norm_num) (by omega)
  rw [hP] at h1 h2
  generalize 2 ^ e = D at *
  generalize hT : 2 ^ W = T at *
  have e1 : d * (T - 3) + 3 * d = d * T := by
    calc d * (T - 3) + 3 * d = d * ((T - 3) + 3) := by ring
      _ = d * T := by rw [Nat.sub_add_cancel (by omega)]
  have e2 : d * (T - 3 + 1) + 2 * d = d * T := by
    calc d * (T - 3 + 1) + 2 * d = d * ((T - 3 + 1) + 2) := by ring
      _ = d * T := by rw [show T - 3 + 1 + 2 = T by omega]
  have hDT : 1 ≤ D * T := Nat.mul_pos (by omega) (by omega)
  have hDd : D < d := by
    by_contra hcon
    have : d * T ≤ D * T := Nat.mul_le_mul_right _ (by omega)
    omega
  obtain ⟨j, rfl⟩ : ∃ j, d = D + j := ⟨d - D, by omega⟩
  have e3 : (D + j) * T = D * T + j * T := by ring
  rw [e3] at e1 e2
  rcases hcase with hc | hc | hc
  · omega
  · have hj2 : 2 ≤ j := by
      by_contra hcon
      have hj1 : j = 1 := by omega
      subst hj1
      omega
    have e4 : j * T = 2 * T + (j - 2) * T := by
      calc j * T = (2 + (j - 2)) * T := by rw [show 2 + (j - 2) = j by omega]
        _ = 2 * T + (j - 2) * T := by ring
    have e5 : (j - 2) * 3 ≤ (j - 2) * T := Nat.mul_le_mul_left _ (by omega)
    omega
  · have e4 : j * T = T + (j - 1) * T := by
      calc j * T = (1 + (j - 1)) * T := by rw [show 1 + (j - 1) = j by omega]
        _ = T + (j - 1) * T := by ring
    have e5 : (j - 1) * 3 ≤ (j - 1) * T := Nat.mul_le_mul_left _ (by omega)
    omega

theorem ustep_uIdeal (W d nc p : Nat) (hW : 4 ≤ W) (hd1 : 1 ≤ d) (hd : d < 2 ^ W)
    (hnc0 : 0 < nc) (hnc : nc < 2 ^ W) (hp : W ≤ p + 1) (hp2 : p + 1 ≤ 2 * W)
    (hq : (2 ^ p - 1) / d ≤ 2 ^ W - 2) :
    ustep W d nc (uIdeal W d nc p) = uIdeal W d nc (p + 1) := by
  have hT := two_pow_pred_nat W (by omega)
  have hH : 8 ≤ 2 ^ (W - 1) := by
    calc 8 = 2 ^ 3 := by norm_num
      _ ≤ 2 ^ (W - 1) := Nat.pow_le_pow_right (by norm_num) (by omega)
  have hR : 2 ^ p % nc < nc := Nat.mod_lt _ hnc0
  have hr2 : (2 ^ p - 1) % d < d := Nat.mod_lt _ (by omega)
  have c1 : usub W nc (2 ^ p % nc) = nc - 2 ^ p % nc := usub_eq W _ _ (by omega) hnc
  have c2 : uadd W ((2 ^ p - 1) % d) 1 = (2 ^ p - 1) % d + 1 := uadd_eq W _ _ (by omega)
  have c3 : usub W d ((2 ^ p - 1) % d) = d - (2 ^ p - 1) % d := usub_eq W _ _ (by omega) hd
  have hq2 : ((2 ^ p - 1) / d) % 2 ^ W = (2 ^ p - 1) / d := Nat.mod_eq_of_lt (by omega)
  obtain ⟨d1, d2⟩ := div_mod_double (2 ^ p) nc hnc0
  obtain ⟨d3, d4⟩ := div_mod_double_succ (2 ^ p - 1) d (by omega)
  have e1 : 2 ^ (p + 1) = 2 * 2 ^ p := by ring
  have e2 := two_pow_succ_pred p
  have hne := quotient_ne W d (p + 1) hW hd hp hp2
  rw [e2] at hne
  unfold ustep uIdeal
  simp only [c1, c2, c3, hq2, e2]
  rw [e1, d1, d2, d3, d4]
  rw [UState.mk.injEq]
  refine ⟨by push_cast; ring, ?_, ?_, ?_, ?_, ?_⟩
  · by_cases h : nc ≤ 2 * (2 ^ p % nc)
    · rw [if_pos (show 2 ^ p % nc ≥ nc - 2 ^ p % nc by omega), if_pos h]
      simp only [umul_mod, uadd_mod]
    · rw [if_neg (show ¬ 2 ^ p % nc ≥ nc - 2 ^ p % nc by omega), if_neg h]
      simp only [umul_mod]
  · by_cases h : nc ≤ 2 * (2 ^ p % nc)
    · rw [if_pos (show 2 ^ p % nc ≥ nc - 2 ^ p % nc by omega), if_pos h]
      show usub W (umul W 2 (2 ^ p % nc)) nc = _
      unfold umul
      exact usub_mod W _ _ h (by omega) hnc
    · rw [if_neg (show ¬ 2 ^ p % nc ≥ nc - 2 ^ p % nc by omega), if_neg h]
      exact umul_eq W _ _ (by omega)
  · by_cases h : d ≤ 2 * ((2 ^ p - 1) % d) + 1
    · rw [if_pos (show (2 ^ p - 1) % d + 1 ≥ d - (2 ^ p - 1) % d by omega), if_pos h]
      show uadd W (umul W 2 ((2 ^ p - 1) / d)) 1 = _
      unfold umul
      rw [uadd_mod]
    · rw [if_neg (show ¬ (2 ^ p - 1) % d + 1 ≥ d - (2 ^ p - 1) % d by omega), if_neg h]
      rfl
  · by_cases h : d ≤ 2 * ((2 ^ p - 1) % d) + 1
    · rw [if_pos (show (2 ^ p - 1) % d + 1 ≥ d - (2 ^ p - 1) % d by omega), if_pos h]
      show usub W (uadd W (umul W 2 ((2 ^ p - 1) % d)) 1) d = _
      unfold umul
      rw [uadd_mod]
      exact usub_mod W _ _ h (by omega) hd
    · rw [if_neg (show ¬ (2 ^ p - 1) % d + 1 ≥ d - (2 ^ p - 1) % d by omega), if_neg h]
      show uadd W (umul W 2 ((2 ^ p - 1) % d)) 1 = _
      unfold umul
      rw [uadd_mod]
      exact Nat.mod_eq_of_lt (by omega)
  · rw [d3] at hne
    rw [if_neg (show ¬ 2 ^ W - 1 ≤ (2 ^ p - 1) / d by omega)]
    by_cases h : d ≤ 2 * ((2 ^ p - 1) % d) + 1
    · rw [if_pos (show (2 ^ p - 1) % d + 1 ≥ d - (2 ^ p - 1) % d by omega), if_pos h]
      rw [if_pos h] at hne
      show (if (2 ^ p - 1) / d ≥ MAX_INT W - 1 then (1 : Int) else 0) = _
      unfold MAX_INT
      by_cases h2 : 2 ^ W - 1 ≤ 2 * ((2 ^ p - 1) / d) + 1
      · rw [if_pos h2, if_pos (by omega)]
      · rw [if_neg h2, if_neg (by omega)]
    · rw [if_neg (show ¬ (2 ^ p - 1) % d + 1 ≥ d - (2 ^ p - 1) % d by omega), if_neg h]
      show (if (2 ^ p - 1) / d ≥ MAX_POW2 W then (1 : Int) else 0) = _
      unfold MAX_POW2
      by_cases h2 : 2 ^ W - 1 ≤ 2 * ((2 ^ p - 1) / d)
      · rw [if_pos h2, if_pos (by omega)]
      · rw [if_neg h2, if_neg (by omega)]

theorem uinit_eq (W d : Nat) (hW : 1 ≤ W) (hd1 : 1 ≤ d) (hd : d < 2 ^ W) :
    uinit W d = uIdeal W d (uNc W d) (W - 1) := by
  obtain ⟨_, hnc, _, _, hncH⟩ := uNc_facts W d hW hd1 hd
  have hT := two_pow_pred_nat W hW
  have hH : 1 ≤ 2 ^ (W - 1) := Nat.one_le_two_pow
  have a1 := Nat.div_add_mod (2 ^ (W - 1)) (uNc W d)
  have a2 := Nat.div_add_mod (2 ^ (W - 1) - 1) d
  have a3 : 2 ^ (W - 1) / uNc W d ≤ 2 ^ (W - 1) := Nat.div_le_self _ _
  have a4 : (2 ^ (W - 1) - 1) / d ≤ 2 ^ (W - 1) - 1 := Nat.div_le_self _ _
  have b1 : 2 ^ (W - 1) / uNc W d * uNc W d ≤ 2 ^ (W - 1) := Nat.div_mul_le_self _ _
  have b2 : (2 ^ (W - 1) - 1) / d * d ≤ 2 ^ (W - 1) - 1 := Nat.div_mul_le_self _ _
  unfold uinit uIdeal MAX_POW2 MAX_INT
  rw [UState.mk.injEq]
  refine ⟨by push_cast [hW]; ring, ?_, ?_, ?_, ?_, ?_⟩
  · exact (Nat.mod_eq_of_lt (by omega)).symm
  · rw [umul_eq W _ _ (by omega), usub_eq W _ _ b1 (by omega)]
    have c1 := Nat.mul_comm (2 ^ (W - 1) / uNc W d) (uNc W d)
    omega
  · exact (Nat.mod_eq_of_lt (by omega)).symm
  · rw [umul_eq W _ _ (by omega), usub_eq W _ _ b2 (by omega)]
    have c2 := Nat.mul_comm ((2 ^ (W - 1) - 1) / d) d
    omega
  · rw [if_neg (by omega)]

theorem ucond_uIdeal_delta (W d p : Nat) (hd1 : 1 ≤ d) (hd : d < 2 ^ W) :
    usub W (usub W d 1) ((2 ^ p - 1) % d) = d - 1 - (2 ^ p - 1) % d := by
  have hr2 : (2 ^ p - 1) % d < d := Nat.mod_lt _ (by omega)
  rw [usub_eq W d 1 hd1 hd]
  exact usub_eq W _ _ (by omega) (by omega)

theorem ucond_true (W d nc p : Nat) (hW : 2 ≤ W) (hd1 : 1 ≤ d) (hd : d < 2 ^ W)
    (hncd : (nc + 1) % d = 0) (hnc : nc < 2 ^ W) (hTd : 2 ^ W ≤ nc + d)
    (hncH : 2 ^ (W - 1) ≤ nc)
    (h : ucond W d (uIdeal W d nc p) = true) :
    p < 2 * W ∧ (2 ^ p - 1) / d ≤ 2 ^ W - 2 := by
  have hT := two_pow_pred_nat W (by omega)
  have hH : 2 ≤ 2 ^ (W - 1) := by
    calc 2 = 2 ^ 1 := by norm_num
      _ ≤ 2 ^ (W - 1) := Nat.pow_le_pow_right (by norm_num) (by omega)
  have hr2 : (2 ^ p - 1) % d < d := Nat.mod_lt _ (by omega)
  have hP1 : 1 ≤ 2 ^ p := Nat.one_le_two_pow
  unfold ucond at h
  simp only [uIdeal, ucond_uIdeal_delta W d p hd1 hd, Bool.and_eq_true, Bool.or_eq_true,
    decide_eq_true_eq] at h
  obtain ⟨hp, hq⟩ := h
  have hp' : p < 2 * W := by exact_mod_cast hp
  refine ⟨hp', ?_⟩
  have hq1 : (2 ^ p / nc) % 2 ^ W ≤ d - 1 := by omega
  rcases Nat.lt_or_ge (2 ^ p / nc) (2 ^ W) with hlt | hge
  · rw [Nat.mod_eq_of_lt hlt] at hq1
    have h1 : 2 ^ p < nc * (2 ^ p / nc + 1) := Nat.lt_mul_div_succ _ (by omega)
    have h2 : nc * (2 ^ p / nc + 1) ≤ nc * d := Nat.mul_le_mul_left _ (by omega)
    have h3 : (2 ^ p - 1) / d < nc := by
      apply Nat.div_lt_of_lt_mul
      rw [Nat.mul_comm]; omega
    omega
  · have h1 : nc * (2 ^ p / nc) ≤ 2 ^ p := Nat.mul_div_le _ _
    have h2 : nc * 2 ^ W ≤ nc * (2 ^ p / nc) := Nat.mul_le_mul_left _ hge
    have h3 : 2 ^ p ≤ 2 ^ (W - 1) * 2 ^ W := by
      rw [← pow_add]
      exact Nat.pow_le_pow_right (by norm_num) (by omega)
    have h4 : nc ≤ 2 ^ (W - 1) := by
      apply Nat.le_of_mul_le_mul_right _ (show 0 < 2 ^ W by omega)
      omega
    have h5 : nc = 2 ^ (W - 1) := by omega
    have h6 : d ≠ 2 ^ (W - 1) := by
      intro hc
      rw [h5, hc, Nat.add_mod_left, Nat.mod_eq_of_lt (by omega)] at hncd
      omega
    have h7 : (2 ^ p - 1) / d < 2 ^ W - 1 := by
      apply Nat.div_lt_of_lt_mul
      have h8 : (2 ^ (W - 1) + 1) * (2 ^ W - 1) ≤ d * (2 ^ W - 1) :=
        Nat.mul_le_mul_right _ (by omega)
      have h9 : (2 ^ (W - 1) + 1) * (2 ^ W - 1) + 2 ^ (W - 1) + 1
          = 2 ^ (W - 1) * 2 ^ W + 2 ^ W := by
        have : 2 ^ W - 1 + 1 = 2 ^ W := by omega
        calc (2 ^ (W - 1) + 1) * (2 ^ W - 1) + 2 ^ (W - 1) + 1
            = (2 ^ (W - 1) + 1) * (2 ^ W - 1 + 1) := by ring
          _ = 2 ^ (W - 1) * 2 ^ W + 2 ^ W := by rw [this]; ring
      omega
    omega

theorem ucond_false (W d nc p : Nat) (hd1 : 1 ≤ d) (hd : d < 2 ^ W)
    (hnc0 : 0 < nc) (hnc : nc < 2 ^ W) (hp : p ≤ 2 * W)
    (h : ucond W d (uIdeal W d nc p) = false) :
    nc * (d - 1 - (2 ^ p - 1) % d) < 2 ^ p := by
  unfold ucond at h
  simp only [uIdeal, ucond_uIdeal_delta W d p hd1 hd, Bool.and_eq_false_iff,
    Bool.or_eq_false_iff, decide_eq_false_iff_not] at h
  rcases h with h | ⟨h1, h2⟩
  · have hp' : ¬ p < 2 * W := by exact_mod_cast h
    have e : p = W + W := by omega
    calc nc * (d - 1 - (2 ^ p - 1) % d) ≤ nc * 2 ^ W := Nat.mul_le_mul_left _ (by omega)
      _ < 2 ^ W * 2 ^ W := Nat.mul_lt_mul_of_pos_right hnc (by omega)
      _ = 2 ^ p := by rw [e, pow_add]
  · have h3 := Nat.div_add_mod (2 ^ p) nc
    have h4 : (2 ^ p / nc) % 2 ^ W ≤ 2 ^ p / nc := Nat.mod_le _ _
    rcases Nat.lt_or_ge (d - 1 - (2 ^ p - 1) % d) (2 ^ p / nc) with h5 | h5
    · have : nc * (d - 1 - (2 ^ p - 1) % d + 1) ≤ nc * (2 ^ p / nc) :=
        Nat.mul_le_mul_left _ h5
      rw [Nat.mul_add, Nat.mul_one] at this
      omega
    · have h6 : 2 ^ p / nc = d - 1 - (2 ^ p - 1) % d := by omega
      have h7 : (2 ^ p / nc) % 2 ^ W = d - 1 - (2 ^ p - 1) % d := by omega
      have h8 : 2 ^ p % nc ≠ 0 := by
        rcases h2 with h2 | h2
        · exact absurd h7 h2
        · exact h2
      rw [← h6]
      omega

theorem uloop_spec (W d nc : Nat) (hW : 4 ≤ W) (hd1 : 1 ≤ d) (hd : d < 2 ^ W)
    (hncd : (nc + 1) % d = 0) (hnc : nc < 2 ^ W) (hTd : 2 ^ W ≤ nc + d)
    (hncH : 2 ^ (W - 1) ≤ nc) :
    ∀ (fuel p : Nat), W ≤ p + 1 → p < 2 * W → (2 ^ p - 1) / d ≤ 2 ^ W - 2 →
      2 * W ≤ fuel + p →
      ∃ p', p < p' ∧ p' ≤ 2 * W ∧
        uloop W d nc fuel (uIdeal W d nc p) = some (uIdeal W d nc p') ∧
        ucond W d (uIdeal W d nc p') = false ∧
        (2 ^ p' - 1) / d ≤ 2 * 2 ^ W - 3 := by
  have hnc0 : 0 < nc := by
    have : 1 ≤ 2 ^ (W - 1) := Nat.one_le_two_pow
    omega
  intro fuel
  induction fuel with
  | zero => intro p _ h2 _ h4; omega
  | succ f ih =>
    intro p h1 h2 h3 h4
    have hs := ustep_uIdeal W d nc p hW hd1 hd hnc0 hnc h1 (by omega) h3
    rw [uloop]
    simp only [hs]
    by_cases hc : ucond W d (uIdeal W d nc (p + 1)) = true
    · rw [if_pos hc]
      obtain ⟨c1, c2⟩ := ucond_true W d nc (p + 1) (by omega) hd1 hd hncd hnc hTd hncH hc
      obtain ⟨p', g1, g2, g3, g4, g5⟩ := ih (p + 1) (by omega) c1 c2 (by omega)
      exact ⟨p', by omega, g2, g3, g4, g5⟩
    · rw [if_neg hc]
      refine ⟨p + 1, by omega, by omega, rfl, by simpa using hc, ?_⟩
      rw [two_pow_succ_pred, (div_mod_double_succ (2 ^ p - 1) d (by omega)).1]
      have hT : 1 ≤ 2 ^ W := Nat.one_le_two_pow
      split_ifs <;> omega

theorem divmagicu_spec (W d fuel : Nat) (hW : 4 ≤ W) (hd1 : 1 ≤ d) (hd : d < 2 ^ W)
    (hf : W + 1 ≤ fuel) :
    ∃ p, W ≤ p ∧ p ≤ 2 * W ∧
      divmagicu W fuel d = some (ufinish W (uIdeal W d (uNc W d) p)) ∧
      ucond W d (uIdeal W d (uNc W d) p) = false ∧
      (2 ^ p - 1) / d ≤ 2 * 2 ^ W - 3 := by
  obtain ⟨h1, h2, h3, _, h5⟩ := uNc_facts W d (by omega) hd1 hd
  have hT := two_pow_pred_nat W (by omega)
  have hq : (2 ^ (W - 1) - 1) / d ≤ 2 ^ W - 2 := by
    have : (2 ^ (W - 1) - 1) / d ≤ 2 ^ (W - 1) - 1 := Nat.div_le_self _ _
    omega
  obtain ⟨p, g1, g2, g3, g4, g5⟩ := uloop_spec W d (uNc W d) hW hd1 hd h1 h2 h3 h5 fuel (W - 1)
    (by omega) (by omega) hq (by omega)
  refine ⟨p, by omega, g2, ?_, g4, g5⟩
  unfold divmagicu
  rw [uinit_eq W d (by omega) hd1 hd, g3]
  rfl

/-- The exact multiplier `(2 ^ p - 1) / d + 1` times `d` is `2 ^ p + delta`. -/
theorem umult_mul (d p : Nat) (hd1 : 1 ≤ d) :
    ((2 ^ p - 1) / d + 1) * d = 2 ^ p + (d - 1 - (2 ^ p - 1) % d) := by
  have h := Nat.div_add_mod (2 ^ p - 1) d
  have hr : (2 ^ p - 1) % d < d := Nat.mod_lt _ (by omega)
  have hP : 1 ≤ 2 ^ p := Nat.one_le_two_pow
  have e : ((2 ^ p - 1) / d + 1) * d = d * ((2 ^ p - 1) / d) + d := by ring
  omega

/-- The multiply-and-shift identity for the exact unsigned multiplier at an
exponent where the exit predicate of `divmagicu` holds. -/
theorem umagic_exact (W d nc p n : Nat) (hd1 : 1 ≤ d)
    (hncd : (nc + 1) % d = 0) (hTd : 2 ^ W ≤ nc + d) (hncH : 2 ^ W ≤ 2 * nc)
    (hE : nc * (d - 1 - (2 ^ p - 1) % d) < 2 ^ p) (hn : n < 2 ^ W) :
    ((2 ^ p - 1) / d + 1) * n / 2 ^ p = n / d := by
  apply magic_floor (2 ^ p) d _ (d - 1 - (2 ^ p - 1) % d) n hd1 (umult_mul d p hd1)
  · intro hr
    have hle := le_of_rem_pred d nc n hd1 hncd hr (by omega)
    calc (d - 1 - (2 ^ p - 1) % d) * n ≤ (d - 1 - (2 ^ p - 1) % d) * nc :=
          Nat.mul_le_mul_left _ hle
      _ = nc * (d - 1 - (2 ^ p - 1) % d) := Nat.mul_comm _ _
      _ < 2 ^ p := hE
  · calc (d - 1 - (2 ^ p - 1) % d) * n ≤ (d - 1 - (2 ^ p - 1) % d) * (2 * nc) :=
          Nat.mul_le_mul_left _ (by omega)
      _ = 2 * (nc * (d - 1 - (2 ^ p - 1) % d)) := by ring
      _ < 2 * 2 ^ p := by omega

/-- The fields of the result of `divmagicu` in terms of the exact multiplier. -/
theorem ufinish_uIdeal (W d nc p : Nat) (hW : 1 ≤ W) (hp : W ≤ p)
    (hq : (2 ^ p - 1) / d ≤ 2 * 2 ^ W - 3) :
    (ufinish W (uIdeal W d nc p)).M < 2 ^ W ∧
    (ufinish W (uIdeal W d nc p)).s = ((p - W : Nat) : Int) ∧
    ((ufinish W (uIdeal W d nc p)).a = 0 ∨ (ufinish W (uIdeal W d nc p)).a = 1) ∧
    ((ufinish W (uIdeal W d nc p)).a = 1 ↔ 2 ^ W ≤ (2 ^ p - 1) / d + 1) ∧
    (ufinish W (uIdeal W d nc p)).a.toNat * 2 ^ W + (ufinish W (uIdeal W d nc p)).M
      = (2 ^ p - 1) / d + 1 := by
  have hT := two_pow_pred_nat W hW
  have hH : 1 ≤ 2 ^ (W - 1) := Nat.one_le_two_pow
  have hM : (ufinish W (uIdeal W d nc p)).M = ((2 ^ p - 1) / d + 1) % 2 ^ W := by
    show uadd W (((2 ^ p - 1) / d) % 2 ^ W) 1 = _
    rw [uadd_mod]
  have ha : (ufinish W (uIdeal W d nc p)).a
      = if 2 ^ W - 1 ≤ (2 ^ p - 1) / d then 1 else 0 := rfl
  have hs : (ufinish W (uIdeal W d nc p)).s = (p : Int) - (W : Int) := rfl
  rw [hM, ha, hs]
  refine ⟨Nat.mod_lt _ (by omega), by omega, ?_, ?_, ?_⟩
  · split_ifs <;> simp
  · split_ifs with h
    · simp; omega
    · simp; omega
  · split_ifs with h
    · have e : (2 ^ p - 1) / d + 1 = ((2 ^ p - 1) / d + 1 - 2 ^ W) + 2 ^ W := by omega
      have : ((2 ^ p - 1) / d + 1) % 2 ^ W = (2 ^ p - 1) / d + 1 - 2 ^ W := by
        conv_lhs => rw [e]
        rw [Nat.add_mod_right]
        exact Nat.mod_eq_of_lt (by omega)
      rw [this]
      simp
      omega
    · rw [Nat.mod_eq_of_lt (by omega)]
      simp

/-- C1. For a word size of 32 or 64 bits, every divisor `1 ≤ d ≤ 2^W - 1`
and every dividend `n < 2^W`: `divmagicu` returns (with at least `W + 1`
units of fuel) a triple `(M, s, a)` with
`n / d = ((a * 2^W + M) * n) / 2^(W + s)`; that is the high word of `M * n`
shifted right by `s` when `a = 0`, and the high word of `M * n` plus `n`
shifted right by `s` when `a = 1`. -/
theorem divmagicu_correct (W d n fuel : Nat) (hW : W = 32 ∨ W = 64)
    (hd1 : 1 ≤ d) (hd : d ≤ 2 ^ W - 1) (hn : n < 2 ^ W) (hf : W + 1 ≤ fuel) :
    ∃ r : mu, divmagicu W fuel d = some r ∧ r.M < 2 ^ W ∧ 0 ≤ r.s ∧ (r.a = 0 ∨ r.a = 1) ∧
      n / d = (r.a.toNat * 2 ^ W + r.M) * n / 2 ^ (W + r.s.toNat) ∧
      (r.a = 0 → n / d = r.M * n / 2 ^ W / 2 ^ r.s.toNat) ∧
      (r.a = 1 → n / d = (r.M * n / 2 ^ W + n) / 2 ^ r.s.toNat) := by
  have hW4 : 4 ≤ W := by omega
  have hT1 : 1 ≤ 2 ^ W := Nat.one_le_two_pow
  have hd' : d < 2 ^ W := by omega
  obtain ⟨p, h1, h2, h3, h4, h5⟩ := divmagicu_spec W d fuel hW4 hd1 hd' hf
  obtain ⟨g1, g2, g3, _, g5⟩ := uNc_facts W d (by omega) hd1 hd'
  have hT := two_pow_pred_nat W (by omega)
  have hE := ucond_false W d (uNc W d) p hd1 hd' (by
    have : 1 ≤ 2 ^ (W - 1) := Nat.one_le_two_pow
    omega) g2 h2 h4
  have hmain := umagic_exact W d (uNc W d) p n hd1 g1 g3 (by omega) hE hn
  obtain ⟨f1, f2, f3, _, f5⟩ := ufinish_uIdeal W d (uNc W d) p (by omega) h1 h5
  generalize ufinish W (uIdeal W d (uNc W d) p) = r at *
  have hs : r.s.toNat = p - W := by rw [f2]; simp
  have hp : 2 ^ (W + r.s.toNat) = 2 ^ p := by rw [hs]; congr 1; omega
  have hkey : n / d = (r.a.toNat * 2 ^ W + r.M) * n / 2 ^ (W + r.s.toNat) := by
    rw [f5, hp, hmain]
  refine ⟨r, h3, f1, by rw [f2]; positivity, f3, hkey, ?_, ?_⟩
  · intro ha
    rw [hkey, ha, pow_add, ← Nat.div_div_eq_div_mul]
    simp
  · intro ha
    rw [hkey, ha, pow_add, ← Nat.div_div_eq_div_mul]
    congr 1
    have : (Int.toNat 1 * 2 ^ W + r.M) * n = r.M * n + 2 ^ W * n := by
      simp; ring
    rw [this, Nat.add_mul_div_left _ _ (by omega)]

theorem divmagicu_correct_witness :
    ∃ r : mu, divmagicu 32 33 7 = some r ∧ r.M < 2 ^ 32 ∧ 0 ≤ r.s ∧ (r.a = 0 ∨ r.a = 1) ∧
      100 / 7 = (r.a.toNat * 2 ^ 32 + r.M) * 100 / 2 ^ (32 + r.s.toNat) ∧
      (r.a = 0 → 100 / 7 = r.M * 100 / 2 ^ 32 / 2 ^ r.s.toNat) ∧
      (r.a = 1 → 100 / 7 = (r.M * 100 / 2 ^ 32 + 100) / 2 ^ r.s.toNat) :=
  divmagicu_correct 32 7 100 33 (Or.inl rfl) (by decide) (by decide) (by decide) (by decide)

theorem wrapS_of_range (W : Nat) (z : Int) (hW : 1 ≤ W) (h1 : -2 ^ (W - 1) ≤ z)
    (h2 : z < 2 ^ (W - 1)) : wrapS W z = z := by
  unfold wrapS
  have hT := two_pow_pred W hW
  rw [Int.emod_eq_of_lt (by linarith) (by linarith)]
  ring

theorem toU_of_nonneg (W : Nat) (z : Int) (h1 : 0 ≤ z) (h2 : z < 2 ^ W) :
    toU W z = z.toNat := by
  unfold toU
  rw [Int.emod_eq_of_lt h1 h2]

theorem sAd_eq (W : Nat) (d : Int) (hW : 1 ≤ W) (hd : |d| < 2 ^ (W - 1)) :
    sAd W d = d.natAbs := by
  unfold sAd
  have hT := two_pow_pred W hW
  have h0 : (0 : Int) ≤ |d| := abs_nonneg d
  have hH : (0 : Int) < 2 ^ (W - 1) := by positivity
  rw [wrapS_of_range W _ hW (by linarith) hd, toU_of_nonneg W _ h0 (by linarith)]
  have := Int.abs_eq_natAbs d
  omega

theorem sT_eq (W : Nat) (d : Int) (hW : 2 ≤ W) (h1 : -2 ^ (W - 1) ≤ d)
    (h2 : d < 2 ^ (W - 1)) :
    sT W d = 2 ^ (W - 1) + (if d < 0 then 1 else 0) := by
  have hT := two_pow_pred W (by omega)
  have hTn := two_pow_pred_nat W (by omega)
  have hH : (0 : Int) < 2 ^ (W - 1) := by positivity
  have hHn : 2 ≤ 2 ^ (W - 1) := by
    calc 2 = 2 ^ 1 := by norm_num
      _ ≤ 2 ^ (W - 1) := Nat.pow_le_pow_right (by norm_num) (by omega)
  unfold sT MAX_POW2
  have key : toU W d / 2 ^ (W - 1) = if d < 0 then 1 else 0 := by
    split_ifs with hneg
    · have e : d % 2 ^ W = d + 2 ^ W := by
        rw [← Int.add_mul_emod_self_left d (2 ^ W) 1, mul_one]
        exact Int.emod_eq_of_lt (by linarith) (by linarith)
      have hu : (toU W d : Int) = d + 2 ^ W := by rw [toU_cast, e]
      have hu1 : 2 ^ (W - 1) ≤ toU W d := by
        zify; rw [hu]; linarith
      have hu2 : toU W d < 2 * 2 ^ (W - 1) := by
        zify; rw [hu]; linarith
      apply Nat.div_eq_of_lt_le <;> omega
    · have hu : (toU W d : Int) = d := by
        rw [toU_cast]; exact Int.emod_eq_of_lt (by linarith) (by linarith)
      have hu2 : toU W d < 2 ^ (W - 1) := by
        zify; rw [hu]; exact_mod_cast h2
      exact Nat.div_eq_of_lt hu2
  rw [key]
  apply uadd_eq
  split_ifs <;> omega

/-- Facts about `anc = t - 1 - t % ad` for a modulus `ad ≥ 2` below `2 ^ (W-1)`
and `t` equal to `2 ^ (W-1)` or `2 ^ (W-1) + 1`. -/
theorem anc_facts (W ad t : Nat) (hW : 3 ≤ W) (had : 2 ≤ ad) (hadH : ad < 2 ^ (W - 1))
    (ht : t = 2 ^ (W - 1) ∨ t = 2 ^ (W - 1) + 1) :
    usub W (usub W t 1) (t % ad) = t - 1 - t % ad ∧
    ((t - 1 - t % ad) + 1) % ad = 0 ∧ t ≤ (t - 1 - t % ad) + ad ∧
    ad ≤ (t - 1 - t % ad) + 1 ∧ (t - 1 - t % ad) + 1 ≤ t ∧ 2 ≤ t - 1 - t % ad := by
  have hTn := two_pow_pred_nat W (by omega)
  have hHn : 4 ≤ 2 ^ (W - 1) := by
    calc 4 = 2 ^ 2 := by norm_num
      _ ≤ 2 ^ (W - 1) := Nat.pow_le_pow_right (by norm_num) (by omega)
  have hr : t % ad < ad := Nat.mod_lt _ (by omega)
  have hdm := Nat.div_add_mod t ad
  have hq : 1 ≤ t / ad := (Nat.one_le_div_iff (by omega)).2 (by omega)
  have hq' : ad ≤ ad * (t / ad) := Nat.le_mul_of_pos_right ad hq
  have e : (t - 1 - t % ad) + 1 = ad * (t / ad) := by omega
  refine ⟨?_, by rw [e]; exact Nat.mul_mod_right _ _, by omega, by omega, by omega, by omega⟩
  rw [usub_eq W t 1 (by omega) (by omega)]
  exact usub_eq W _ _ (by omega) (by omega)

theorem sstep_sIdeal (W ad anc p : Nat) (hW : 1 ≤ W) (had : 0 < ad) (hadH : ad ≤ 2 ^ (W - 1))
    (hanc0 : 0 < anc) (hancH : anc ≤ 2 ^ (W - 1))
    (hq1 : 2 ^ p / anc < 2 ^ (W - 1)) (hq2 : 2 ^ p / ad < 2 ^ (W - 1)) :
    sstep W ad anc (sIdeal ad anc p) = sIdeal ad anc (p + 1) := by
  have hT := two_pow_pred_nat W hW
  have hR1 : 2 ^ p % anc < anc := Nat.mod_lt _ hanc0
  have hR2 : 2 ^ p % ad < ad := Nat.mod_lt _ had
  obtain ⟨d1, d2⟩ := div_mod_double (2 ^ p) anc hanc0
  obtain ⟨d3, d4⟩ := div_mod_double (2 ^ p) ad had
  have e1 : 2 ^ (p + 1) = 2 * 2 ^ p := by ring
  have c1 : umul W 2 (2 ^ p / anc) = 2 * (2 ^ p / anc) := umul_eq W _ _ (by omega)
  have c2 : umul W 2 (2 ^ p % anc) = 2 * (2 ^ p % anc) := umul_eq W _ _ (by omega)
  have c3 : umul W 2 (2 ^ p / ad) = 2 * (2 ^ p / ad) := umul_eq W _ _ (by omega)
  have c4 : umul W 2 (2 ^ p % ad) = 2 * (2 ^ p % ad) := umul_eq W _ _ (by omega)
  unfold sstep sIdeal
  simp only [c1, c2, c3, c4]
  rw [e1, d1, d2, d3, d4]
  rw [SState.mk.injEq]
  refine ⟨by push_cast; ring, ?_, ?_, ?_, ?_⟩
  · by_cases h : anc ≤ 2 * (2 ^ p % anc)
    · rw [if_pos h, if_pos h]
      exact uadd_eq W _ _ (by omega)
    · rw [if_neg h, if_neg h]
  · by_cases h : anc ≤ 2 * (2 ^ p % anc)
    · rw [if_pos h, if_pos h]
      exact usub_eq W _ _ h (by omega)
    · rw [if_neg h, if_neg h]
  · by_cases h : ad ≤ 2 * (2 ^ p % ad)
    · rw [if_pos h, if_pos h]
      exact uadd_eq W _ _ (by omega)
    · rw [if_neg h, if_neg h]
  · by_cases h : ad ≤ 2 * (2 ^ p % ad)
    · rw [if_pos h, if_pos h]
      exact usub_eq W _ _ h (by omega)
    · rw [if_neg h, if_neg h]

/-- On the closed form the loop condition of `divmagic` says
`2 ^ p ≤ anc * (ad - 2 ^ p % ad)`. -/
theorem scond_sIdeal (W ad anc p : Nat) (had : 0 < ad) (hadT : ad < 2 ^ W) (hanc0 : 0 < anc) :
    scond W ad (sIdeal ad anc p) = true ↔ 2 ^ p ≤ anc * (ad - 2 ^ p % ad) := by
  have hR2 : 2 ^ p % ad < ad := Nat.mod_lt _ had
  have hR1 : 2 ^ p % anc < anc := Nat.mod_lt _ hanc0
  have hdm := Nat.div_add_mod (2 ^ p) anc
  unfold scond
  simp only [sIdeal, usub_eq W ad _ (le_of_lt hR2) hadT, Bool.or_eq_true, Bool.and_eq_true,
    decide_eq_true_eq]
  constructor
  · rintro (h | ⟨h1, h2⟩)
    · have : anc * (2 ^ p / anc + 1) ≤ anc * (ad - 2 ^ p % ad) := Nat.mul_le_mul_left _ h
      rw [Nat.mul_add, Nat.mul_one] at this
      omega
    · rw [← h1]; omega
  · intro h
    rcases Nat.lt_trichotomy (2 ^ p / anc) (ad - 2 ^ p % ad) with h1 | h1 | h1
    · exact Or.inl h1
    · right
      refine ⟨h1, ?_⟩
      rw [← h1] at h
      omega
    · exfalso
      have : anc * (ad - 2 ^ p % ad + 1) ≤ anc * (2 ^ p / anc) := Nat.mul_le_mul_left _ h1
      rw [Nat.mul_add, Nat.mul_one] at this
      omega

theorem sinit_eq (W : Nat) (d : Int) (hW : 1 ≤ W) :
    sinit W d = sIdeal (sAd W d) (sAnc W d) (W - 1) := by
  have hT := two_pow_pred_nat W hW
  have hH : 1 ≤ 2 ^ (W - 1) := Nat.one_le_two_pow
  have b1 : 2 ^ (W - 1) / sAnc W d * sAnc W d ≤ 2 ^ (W - 1) := Nat.div_mul_le_self _ _
  have b2 : 2 ^ (W - 1) / sAd W d * sAd W d ≤ 2 ^ (W - 1) := Nat.div_mul_le_self _ _
  have a1 := Nat.div_add_mod (2 ^ (W - 1)) (sAnc W d)
  have a2 := Nat.div_add_mod (2 ^ (W - 1)) (sAd W d)
  have c1 := Nat.mul_comm (2 ^ (W - 1) / sAnc W d) (sAnc W d)
  have c2 := Nat.mul_comm (2 ^ (W - 1) / sAd W d) (sAd W d)
  unfold sinit sIdeal MAX_POW2
  rw [SState.mk.injEq]
  refine ⟨by push_cast [hW]; ring, rfl, ?_, rfl, ?_⟩
  · rw [umul_eq W _ _ (by omega), usub_eq W _ _ b1 (by omega)]
    omega
  · rw [umul_eq W _ _ (by omega), usub_eq W _ _ b2 (by omega)]
    omega

/-- While the loop of `divmagic` continues at exponent `p ≥ W`, the quotient
`q1` stays below `2 ^ (W-1)` and the next value of `q2`, plus one, still
fits in `W` bits. -/
theorem scond_true_bounds (W ad anc p : Nat) (hW : 3 ≤ W) (had : 2 ≤ ad)
    (hadH : ad < 2 ^ (W - 1)) (hancd : (anc + 1) % ad = 0) (hancH : anc ≤ 2 ^ (W - 1))
    (hp : W ≤ p) (h : 2 ^ p ≤ anc * (ad - 2 ^ p % ad)) :
    2 ^ p / anc < 2 ^ (W - 1) ∧ 2 ^ (p + 1) / ad ≤ 2 ^ W - 2 := by
  have hT := two_pow_pred_nat W (by omega)
  have hHn : 4 ≤ 2 ^ (W - 1) := by
    calc 4 = 2 ^ 2 := by norm_num
      _ ≤ 2 ^ (W - 1) := Nat.pow_le_pow_right (by norm_num) (by omega)
  have hR2 : 2 ^ p % ad < ad := Nat.mod_lt _ (by omega)
  have hdm := Nat.div_add_mod (2 ^ p) ad
  constructor
  · have : 2 ^ p / anc ≤ ad - 2 ^ p % ad := Nat.div_le_of_le_mul h
    omega
  · have e1 : 2 ^ (p + 1) = 2 * 2 ^ p := by ring
    rw [e1, (div_mod_double (2 ^ p) ad (by omega)).1]
    rcases Nat.eq_zero_or_pos (2 ^ p % ad) with hz | hpos
    · rw [hz] at h ⊢
      rw [if_neg (by omega)]
      rw [hz, Nat.add_zero] at hdm
      have h1 : ad * (2 ^ p / ad) ≤ ad * anc := by
        rw [hdm, Nat.mul_comm ad anc]; simpa using h
      have h2 : 2 ^ p / ad ≤ anc := Nat.le_of_mul_le_mul_left h1 (by omega)
      have h3 : 2 ^ p / ad ≠ 2 ^ (W - 1) := by
        intro hc
        have hanc : anc = 2 ^ (W - 1) := by omega
        have e2 : 2 ^ p = 2 ^ (p - (W - 1)) * 2 ^ (W - 1) := by
          rw [← pow_add]; congr 1; omega
        have e3 : ad = 2 ^ (p - (W - 1)) := by
          apply Nat.eq_of_mul_eq_mul_right (show 0 < 2 ^ (W - 1) by omega)
          rw [← e2, ← hdm, hc]
        have e4 : 2 ^ (p - (W - 1)) = 2 * 2 ^ (p - W) := by
          rw [show p - (W - 1) = (p - W) + 1 by omega, pow_succ]; ring
        have e5 : 2 ^ (W - 1) = 2 * 2 ^ (W - 2) := by
          rw [show W - 1 = (W - 2) + 1 by omega, pow_succ]; ring
        have h4 : ad ∣ anc + 1 := Nat.dvd_of_mod_eq_zero hancd
        have h5 : 2 ∣ anc + 1 := dvd_trans ⟨2 ^ (p - W), by rw [e3, e4]⟩ h4
        omega
      omega
    · have h1 : anc * (ad - 2 ^ p % ad) ≤ 2 ^ (W - 1) * (ad - 1) :=
        Nat.mul_le_mul hancH (by omega)
      have h2 : 2 ^ (W - 1) * (ad - 1) + 2 ^ (W - 1) = 2 ^ (W - 1) * ad := by
        rw [← Nat.mul_succ]; congr 1; omega
      have h3 : (2 ^ (W - 1) - 1) * ad + ad = 2 ^ (W - 1) * ad := by
        rw [← Nat.succ_mul]; congr 1; omega
      have h4 : ad * (2 ^ p / ad) < (2 ^ (W - 1) - 1) * ad := by omega
      have h5 : 2 ^ p / ad < 2 ^ (W - 1) - 1 := by
        rw [Nat.mul_comm] at h4
        exact Nat.lt_of_mul_lt_mul_right h4
      split_ifs <;> omega

/-- At exponent `2 * W - 2` the loop condition of `divmagic` is false. -/
theorem scond_ceiling (W ad anc p : Nat) (hW : 1 ≤ W) (had : 1 ≤ ad)
    (hadH : ad < 2 ^ (W - 1)) (hancH : anc ≤ 2 ^ (W - 1)) (hp : 2 * W - 2 ≤ p) :
    ¬ 2 ^ p ≤ anc * (ad - 2 ^ p % ad) := by
  intro h
  have h1 : anc * (ad - 2 ^ p % ad) ≤ 2 ^ (W - 1) * (ad - 2 ^ p % ad) :=
    Nat.mul_le_mul_right _ hancH
  have h2 : 2 ^ (W - 1) * (ad - 2 ^ p % ad) < 2 ^ (W - 1) * 2 ^ (W - 1) :=
    Nat.mul_lt_mul_of_pos_left (by omega) (by positivity)
  have h3 : 2 ^ (W - 1) * 2 ^ (W - 1) ≤ 2 ^ p := by
    rw [← pow_add]
    exact Nat.pow_le_pow_right (by norm_num) (by omega)
  omega

theorem half_quotient (W ad p : Nat) (hW : 1 ≤ W) (had : 0 < ad)
    (h : 2 ^ (p + 1) / ad ≤ 2 ^ W - 2) : 2 ^ p / ad < 2 ^ (W - 1) := by
  have hT := two_pow_pred_nat W hW
  have e1 : 2 ^ (p + 1) = 2 * 2 ^ p := by ring
  rw [e1, (div_mod_double (2 ^ p) ad had).1] at h
  have hH : 1 ≤ 2 ^ (W - 1) := Nat.one_le_two_pow
  split_ifs at h <;> omega

theorem sloop_spec (W ad anc : Nat) (hW : 3 ≤ W) (had : 2 ≤ ad)
    (hadH : ad < 2 ^ (W - 1)) (hancd : (anc + 1) % ad = 0) (hancH : anc ≤ 2 ^ (W - 1))
    (hanc0 : 0 < anc) :
    ∀ (fuel p : Nat), W ≤ p + 1 → p + 1 ≤ 2 * W - 2 →
      2 ^ p / anc < 2 ^ (W - 1) → 2 ^ (p + 1) / ad ≤ 2 ^ W - 2 →
      2 * W - 2 ≤ fuel + p →
      ∃ p', p < p' ∧ p' ≤ 2 * W - 2 ∧
        sloop W ad anc fuel (sIdeal ad anc p) = some (sIdeal ad anc p') ∧
        ¬ 2 ^ p' ≤ anc * (ad - 2 ^ p' % ad) ∧
        (∀ k, p < k → k < p' → 2 ^ k ≤ anc * (ad - 2 ^ k % ad)) ∧
        2 ^ p' / ad ≤ 2 ^ W - 2 := by
  have hT := two_pow_pred_nat W (by omega)
  have hadT : ad < 2 ^ W := by omega
  intro fuel
  induction fuel with
  | zero => intro p _ h2 _ _ h5; omega
  | succ f ih =>
    intro p h1 h2 h3 h4 h5
    have hs := sstep_sIdeal W ad anc p (by omega) (by omega) (by omega) hanc0 hancH h3
      (half_quotient W ad p (by omega) (by omega) h4)
    rw [sloop]
    simp only [hs]
    by_cases hc : 2 ^ (p + 1) ≤ anc * (ad - 2 ^ (p + 1) % ad)
    · rw [if_pos ((scond_sIdeal W ad anc (p + 1) (by omega) hadT hanc0).2 hc)]
      have hlt : p + 1 < 2 * W - 2 := by
        by_contra hcon
        exact scond_ceiling W ad anc (p + 1) (by omega) (by omega) hadH hancH (by omega) hc
      obtain ⟨c1, c2⟩ := scond_true_bounds W ad anc (p + 1) hW had hadH hancd hancH
        (by omega) hc
      obtain ⟨p', g1, g2, g3, g4, g5, g6⟩ := ih (p + 1) (by omega) (by omega) c1 c2 (by omega)
      refine ⟨p', by omega, g2, g3, g4, ?_, g6⟩
      intro k hk1 hk2
      rcases Nat.eq_or_lt_of_le (show p + 1 ≤ k by omega) with h | h
      · rw [← h]; exact hc
      · exact g5 k h hk2
    · have hn : ¬ scond W ad (sIdeal ad anc (p + 1)) = true := fun hh =>
        hc ((scond_sIdeal W ad anc (p + 1) (by omega) hadT hanc0).1 hh)
      rw [if_neg hn]
      exact ⟨p + 1, by omega, h2, rfl, hc, fun k hk1 hk2 => by omega, h4⟩

/-- With less fuel than the number of iterations the loop does not return. -/
theorem sloop_none (W ad anc : Nat) (hW : 3 ≤ W) (had : 2 ≤ ad)
    (hadH : ad < 2 ^ (W - 1)) (hancd : (anc + 1) % ad = 0) (hancH : anc ≤ 2 ^ (W - 1))
    (hanc0 : 0 < anc) :
    ∀ (fuel p : Nat), W ≤ p + 1 →
      2 ^ p / anc < 2 ^ (W - 1) → 2 ^ (p + 1) / ad ≤ 2 ^ W - 2 →
      (∀ k, p < k → k ≤ p + fuel → 2 ^ k ≤ anc * (ad - 2 ^ k % ad)) →
      sloop W ad anc fuel (sIdeal ad anc p) = none := by
  have hT := two_pow_pred_nat W (by omega)
  have hadT : ad < 2 ^ W := by omega
  intro fuel
  induction fuel with
  | zero => intro p _ _ _ _; rfl
  | succ f ih =>
    intro p h1 h3 h4 h5
    have hs := sstep_sIdeal W ad anc p (by omega) (by omega) (by omega) hanc0 hancH h3
      (half_quotient W ad p (by omega) (by omega) h4)
    have hc := h5 (p + 1) (by omega) (by omega)
    rw [sloop]
    simp only [hs]
    rw [if_pos ((scond_sIdeal W ad anc (p + 1) (by omega) hadT hanc0).2 hc)]
    obtain ⟨c1, c2⟩ := scond_true_bounds W ad anc (p + 1) hW had hadH hancd hancH
      (by omega) hc
    exact ih (p + 1) (by omega) c1 c2 (fun k hk1 hk2 => h5 k (by omega) (by omega))

theorem sloop_exact (W ad anc : Nat) (hW : 3 ≤ W) (had : 2 ≤ ad)
    (hadH : ad < 2 ^ (W - 1)) (hancd : (anc + 1) % ad = 0) (hancH : anc ≤ 2 ^ (W - 1))
    (hanc0 : 0 < anc) (p' : Nat) (hexit : ¬ 2 ^ p' ≤ anc * (ad - 2 ^ p' % ad)) :
    ∀ (fuel p : Nat), W ≤ p + 1 → p < p' →
      2 ^ p / anc < 2 ^ (W - 1) → 2 ^ (p + 1) / ad ≤ 2 ^ W - 2 →
      (∀ k, p < k → k < p' → 2 ^ k ≤ anc * (ad - 2 ^ k % ad)) → p' - p ≤ fuel →
      sloop W ad anc fuel (sIdeal ad anc p) = some (sIdeal ad anc p') := by
  have hT := two_pow_pred_nat W (by omega)
  have hadT : ad < 2 ^ W := by omega
  intro fuel
  induction fuel with
  | zero => intro p _ h2 _ _ _ h6; omega
  | succ f ih =>
    intro p h1 h2 h3 h4 h5 h6
    have hs := sstep_sIdeal W ad anc p (by omega) (by omega) (by omega) hanc0 hancH h3
      (half_quotient W ad p (by omega) (by omega) h4)
    rw [sloop]
    simp only [hs]
    rcases Nat.eq_or_lt_of_le (show p + 1 ≤ p' by omega) with he | hlt
    · have hn : ¬ scond W ad (sIdeal ad anc (p + 1)) = true := fun hh =>
        hexit (by rw [← he]; exact (scond_sIdeal W ad anc (p + 1) (by omega) hadT hanc0).1 hh)
      rw [if_neg hn, he]
    · have hc := h5 (p + 1) (by omega) hlt
      rw [if_pos ((scond_sIdeal W ad anc (p + 1) (by omega) hadT hanc0).2 hc)]
      obtain ⟨c1, c2⟩ := scond_true_bounds W ad anc (p + 1) hW had hadH hancd hancH
        (by omega) hc
      exact ih (p + 1) (by omega) hlt c1 c2 (fun k hk1 hk2 => h5 k (by omega) hk2) (by omega)

/-- The constant `anc` of `divmagic` as a function of the divisor. -/
theorem sAnc_eq (W : Nat) (d : Int) (hW : 3 ≤ W) (h2 : 2 ≤ |d|) (hd : |d| ≤ 2 ^ (W - 1) - 1) :
    sAd W d = d.natAbs ∧ 2 ≤ d.natAbs ∧ d.natAbs < 2 ^ (W - 1) ∧
    sT W d = 2 ^ (W - 1) + (if d < 0 then 1 else 0) ∧
    sAnc W d = sT W d - 1 - sT W d % d.natAbs := by
  have hab := Int.abs_eq_natAbs d
  have hH : (0 : Int) < 2 ^ (W - 1) := by positivity
  have hlt : d.natAbs < 2 ^ (W - 1) := by
    zify; linarith
  have h1 : sAd W d = d.natAbs := sAd_eq W d (by omega) (by linarith)
  have hr := abs_le.1 (show |d| ≤ 2 ^ (W - 1) by linarith)
  have hr2 := abs_lt.1 (show |d| < 2 ^ (W - 1) by linarith)
  have h3 := sT_eq W d (by omega) hr.1 hr2.2
  have h4 : 2 ≤ d.natAbs := by
    zify; exact h2
  refine ⟨h1, h4, hlt, h3, ?_⟩
  unfold sAnc
  rw [h1]
  refine (anc_facts W d.natAbs (sT W d) hW h4 hlt ?_).1
  rw [h3]
  split_ifs
  · right; rfl
  · left; rfl

theorem divmagic_spec (W : Nat) (d : Int) (hW : 3 ≤ W) (h2 : 2 ≤ |d|)
    (hd : |d| ≤ 2 ^ (W - 1) - 1) :
    ∃ p, W ≤ p ∧ p ≤ 2 * W - 2 ∧
      (∀ fuel, p - (W - 1) ≤ fuel →
        divmagic W fuel d = some (sfinish W d (sIdeal (sAd W d) (sAnc W d) p))) ∧
      (∀ fuel, fuel < p - (W - 1) → divmagic W fuel d = none) ∧
      ¬ 2 ^ p ≤ sAnc W d * (sAd W d - 2 ^ p % sAd W d) ∧
      (∀ k, W ≤ k → k < p → 2 ^ k ≤ sAnc W d * (sAd W d - 2 ^ k % sAd W d)) ∧
      2 ^ p / sAd W d ≤ 2 ^ W - 2 := by
  obtain ⟨e1, e2, e3, e4, e5⟩ := sAnc_eq W d hW h2 hd
  have ht : sT W d = 2 ^ (W - 1) ∨ sT W d = 2 ^ (W - 1) + 1 := by
    rw [e4]; split_ifs
    · right; rfl
    · left; rfl
  obtain ⟨_, f2, f3, f4, f5, f6⟩ := anc_facts W d.natAbs (sT W d) hW e2 e3 ht
  rw [← e5] at f2 f3 f4 f5 f6
  rw [e1]
  have hT := two_pow_pred_nat W (by omega)
  have hHn : 4 ≤ 2 ^ (W - 1) := by
    calc 4 = 2 ^ 2 := by norm_num
      _ ≤ 2 ^ (W - 1) := Nat.pow_le_pow_right (by norm_num) (by omega)
  have hancH : sAnc W d ≤ 2 ^ (W - 1) := by omega
  have i1 : 2 ^ (W - 1) / sAnc W d < 2 ^ (W - 1) := Nat.div_lt_self (by omega) (by omega)
  have i2 : 2 ^ (W - 1 + 1) / d.natAbs ≤ 2 ^ W - 2 := by
    rw [show W - 1 + 1 = W by omega]
    have : 2 ^ W / d.natAbs ≤ 2 ^ W / 2 := Nat.div_le_div_left e2 (by norm_num)
    omega
  obtain ⟨p, g1, g2, _, g4, g5, g6⟩ := sloop_spec W d.natAbs (sAnc W d) hW e2 e3 f2 hancH
    (by omega) (W - 1) (W - 1) (by omega) (by omega) i1 i2 (by omega)
  refine ⟨p, by omega, g2, ?_, ?_, g4, fun k hk1 hk2 => g5 k (by omega) hk2, g6⟩
  · intro fuel hf
    unfold divmagic
    rw [sinit_eq W d (by omega), e1]
    rw [sloop_exact W d.natAbs (sAnc W d) hW e2 e3 f2 hancH (by omega) p g4 fuel (W - 1)
      (by omega) g1 i1 i2 g5 hf]
    rfl
  · intro fuel hf
    unfold divmagic
    rw [sinit_eq W d (by omega), e1]
    rw [sloop_none W d.natAbs (sAnc W d) hW e2 e3 f2 hancH (by omega) fuel (W - 1)
      (by omega) i1 i2 (fun k hk1 hk2 => g5 k hk1 (by omega))]
    rfl

theorem wrapS_of_high (W : Nat) (z : Int) (hW : 1 ≤ W) (h1 : 2 ^ (W - 1) ≤ z)
    (h2 : z < 2 ^ W + 2 ^ (W - 1)) : wrapS W z = z - 2 ^ W := by
  unfold wrapS
  have hT := two_pow_pred W hW
  have e : z + 2 ^ (W - 1) = (z + 2 ^ (W - 1) - 2 ^ W) + 2 ^ W * 1 := by ring
  rw [e, Int.add_mul_emod_self_left, Int.emod_eq_of_lt (by linarith) (by linarith)]
  ring

/-- The sign handling of the reconstruction: whatever the representation of
the multiplier `m` as a `sint_t`, the corrected high word is the high word
of `m * n` (`d > 0`) or of `-m * n` (`d < 0`). -/
theorem signed_high_word (W m : Nat) (d n : Int) (hW : 2 ≤ W) (hd0 : d ≠ 0) (hm1 : 1 ≤ m)
    (hmT : m ≤ 2 ^ W - 1) (M : Int)
    (hM : M = if d < 0 then wrapS W (-(toS W m)) else toS W m) :
    (if 0 < d ∧ M < 0 then M * n / 2 ^ W + n
      else if d < 0 ∧ 0 < M then M * n / 2 ^ W - n else M * n / 2 ^ W)
      = (if d < 0 then -(m : Int) else (m : Int)) * n / 2 ^ W := by
  have hT := two_pow_pred W (by omega)
  have hTn := two_pow_pred_nat W (by omega)
  have hT0 : (2 : Int) ^ W ≠ 0 := by positivity
  have hH : (2 : Int) ≤ 2 ^ (W - 1) := by
    have : (2 : Int) ^ 1 ≤ 2 ^ (W - 1) := pow_le_pow_right₀ (by norm_num) (by omega)
    simpa using this
  have hm1' : (1 : Int) ≤ m := by exact_mod_cast hm1
  have hmT' : (m : Int) ≤ 2 ^ W - 1 := by
    have : (m : Int) ≤ ((2 ^ W - 1 : Nat) : Int) := by exact_mod_cast hmT
    rw [Nat.cast_sub Nat.one_le_two_pow] at this
    simpa using this
  have lo : ∀ a : Int, (a - 2 ^ W) * n / 2 ^ W = a * n / 2 ^ W - n := by
    intro a
    have : (a - 2 ^ W) * n = a * n + (-n) * 2 ^ W := by ring
    rw [this, Int.add_mul_ediv_right _ _ hT0]
    ring
  have hi : ∀ a : Int, (2 ^ W - a) * n / 2 ^ W = -a * n / 2 ^ W + n := by
    intro a
    have : (2 ^ W - a) * n = -a * n + n * 2 ^ W := by ring
    rw [this, Int.add_mul_ediv_right _ _ hT0]
  rcases lt_or_ge (m : Int) (2 ^ (W - 1)) with hlow | hhigh
  · -- the multiplier is a positive `sint_t`
    have e1 : toS W m = m := wrapS_of_range W _ (by omega) (by linarith) hlow
    rcases lt_or_gt_of_ne hd0 with hneg | hpos
    · have e2 : wrapS W (-(m : Int)) = -m := wrapS_of_range W _ (by omega) (by linarith)
        (by linarith)
      rw [if_pos hneg, e1, e2] at hM
      subst hM
      rw [if_neg (by intro h; linarith [h.1]), if_neg (by intro h; linarith [h.2]), if_pos hneg]
    · rw [if_neg (by linarith), e1] at hM
      subst hM
      rw [if_neg (by intro h; linarith [h.2]), if_neg (by intro h; linarith [h.1]),
        if_neg (by linarith)]
  · -- the multiplier wraps to a negative `sint_t`
    have e1 : toS W m = m - 2 ^ W := wrapS_of_high W _ (by omega) hhigh (by linarith)
    rcases lt_or_gt_of_ne hd0 with hneg | hpos
    · rcases eq_or_lt_of_le hhigh with heq | hgt
      · have e2 : wrapS W (-((m : Int) - 2 ^ W)) = -m := by
          have : -((m : Int) - 2 ^ W) = 2 ^ (W - 1) := by rw [← heq]; linarith
          rw [this, wrapS_of_high W _ (by omega) (le_refl _) (by linarith), ← heq]
          linarith
        rw [if_pos hneg, e1, e2] at hM
        subst hM
        rw [if_neg (by intro h; linarith [h.1]), if_neg (by intro h; linarith [h.2]),
          if_pos hneg]
      · have e2 : wrapS W (-((m : Int) - 2 ^ W)) = 2 ^ W - m := by
          rw [wrapS_of_range W _ (by omega) (by linarith) (by linarith)]
          ring
        rw [if_pos hneg, e1, e2] at hM
        subst hM
        rw [if_neg (by intro h; linarith [h.1]), if_pos ⟨hneg, by linarith⟩, if_pos hneg, hi]
        ring
    · rw [if_neg (by linarith), e1] at hM
      subst hM
      rw [if_pos ⟨hpos, by linarith⟩, if_neg (by linarith), lo]
      ring

/-- Nonnegative dividend: floor division gives the truncated quotient. -/
theorem recon_nonneg (m P ad : Nat) (y : Int) (hy : 0 ≤ y)
    (h : m * y.toNat / P = y.toNat / ad) :
    ((m : Int) * y / (P : Int)) + (if (m : Int) * y / (P : Int) < 0 then 1 else 0)
      = Int.tdiv y (ad : Int) := by
  obtain ⟨N, rfl⟩ := Int.eq_ofNat_of_zero_le hy
  simp only [Int.toNat_ofNat] at h
  have e : ((m : Int) * (N : Int)) / (P : Int) = ((m * N / P : Nat) : Int) := by push_cast; rfl
  rw [e, h, if_neg (not_lt.2 (by positivity))]
  rw [Int.tdiv_eq_ediv (by positivity) (by positivity)]
  push_cast
  ring

/-- Negative dividend: floor division is one below the truncated quotient. -/
theorem recon_neg (m P ad : Nat) (y : Int) (hy : y < 0) (hP : 0 < P)
    (h1 : (-y).toNat / ad * P < m * (-y).toNat)
    (h2 : m * (-y).toNat ≤ ((-y).toNat / ad + 1) * P) :
    ((m : Int) * y / (P : Int)) + (if (m : Int) * y / (P : Int) < 0 then 1 else 0)
      = Int.tdiv y (ad : Int) := by
  obtain ⟨N, hN⟩ := Int.eq_ofNat_of_zero_le (show 0 ≤ -y by linarith)
  have hyN : y = -(N : Int) := by linarith
  rw [hN] at h1 h2
  simp only [Int.toNat_ofNat] at h1 h2
  subst hyN
  have hP' : (0 : Int) < P := by exact_mod_cast hP
  have h1' : ((N / ad : Nat) : Int) * P < m * N := by exact_mod_cast h1
  have h2' : (m : Int) * N ≤ (((N / ad : Nat) : Int) + 1) * P := by exact_mod_cast h2
  have e : (m : Int) * -(N : Int) / (P : Int) = -((N / ad : Nat) : Int) - 1 := by
    apply le_antisymm
    · have : (m : Int) * -(N : Int) / (P : Int) < -((N / ad : Nat) : Int) := by
        apply Int.ediv_lt_of_lt_mul hP'
        linarith
      linarith
    · apply Int.le_ediv_of_mul_le hP'
      linarith
  rw [e, if_pos (by have : (0 : Int) ≤ ((N / ad : Nat) : Int) := by positivity
                    linarith)]
  rw [Int.neg_tdiv, Int.tdiv_eq_ediv (by positivity) (by positivity)]
  push_cast
  ring

theorem ediv_ediv_pos (a T K : Int) (hT : 0 < T) (hK : 0 < K) :
    a / T / K = a / (T * K) := by
  have hTK : 0 < T * K := Int.mul_pos hT hK
  have h1 := Int.ediv_mul_le a hTK.ne'
  have h2 := Int.lt_ediv_add_one_mul_self a hTK
  apply le_antisymm
  · apply Int.le_ediv_of_mul_le hTK
    have h3 := Int.ediv_mul_le (a / T) hK.ne'
    have h4 := Int.ediv_mul_le a hT.ne'
    calc a / T / K * (T * K) = (a / T / K * K) * T := by ring
      _ ≤ a / T * T := Int.mul_le_mul_of_nonneg_right h3 hT.le
      _ ≤ a := h4
  · have h5 : a / (T * K) * K ≤ a / T := by
      apply Int.le_ediv_of_mul_le hT
      calc a / (T * K) * K * T = a / (T * K) * (T * K) := by ring
        _ ≤ a := h1
    exact Int.le_ediv_of_mul_le hK h5

theorem sbound_low (ad anc t delta P N : Nat) (had : 1 ≤ ad) (hancd : (anc + 1) % ad = 0)
    (ht : t ≤ anc + ad) (hle : ad ≤ anc + 1) (hE : anc * delta < P) (hN : N < t) :
    (N % ad = ad - 1 → delta * N < P) ∧ delta * N < 2 * P := by
  constructor
  · intro hr
    have := le_of_rem_pred ad anc N had hancd hr (by omega)
    calc delta * N ≤ delta * anc := Nat.mul_le_mul_left _ this
      _ = anc * delta := Nat.mul_comm _ _
      _ < P := hE
  · calc delta * N ≤ delta * (2 * anc) := Nat.mul_le_mul_left _ (by omega)
      _ = 2 * (anc * delta) := by ring
      _ < 2 * P := by omega

/-- The dividend `-2 ^ (W-1)` with a positive divisor. -/
theorem sbound_top (W ad anc p : Nat) (hW : 1 ≤ W) (had : 2 ≤ ad)
    (hanc : anc = 2 ^ (W - 1) - 1 - 2 ^ (W - 1) % ad) (hle : ad ≤ anc + 1) (hp : W ≤ p)
    (hE : anc * (ad - 2 ^ p % ad) < 2 ^ p) :
    (2 ^ (W - 1) % ad = ad - 1 → (ad - 2 ^ p % ad) * 2 ^ (W - 1) ≤ 2 ^ p) ∧
      (ad - 2 ^ p % ad) * 2 ^ (W - 1) ≤ 2 * 2 ^ p := by
  have hR : 2 ^ p % ad < ad := Nat.mod_lt _ (by omega)
  have hr : 2 ^ (W - 1) % ad < ad := Nat.mod_lt _ (by omega)
  have hH : 1 ≤ 2 ^ (W - 1) := Nat.one_le_two_pow
  have key : 2 ^ (W - 1) % ad = ad - 1 → (ad - 2 ^ p % ad) * 2 ^ (W - 1) ≤ 2 ^ p := by
    intro hrem
    have e2 : 2 ^ p = 2 ^ (p - (W - 1)) * 2 ^ (W - 1) := by
      rw [← pow_add]; congr 1; omega
    have hdm1 := Nat.div_add_mod (2 ^ (W - 1)) ad
    have hdm2 := Nat.div_add_mod (2 ^ p) ad
    have d1 : ad ∣ 2 ^ (W - 1) + 1 :=
      ⟨2 ^ (W - 1) / ad + 1, by rw [Nat.mul_add, Nat.mul_one]; omega⟩
    have d2 : ad ∣ 2 ^ p + 2 ^ (p - (W - 1)) := by
      have : 2 ^ p + 2 ^ (p - (W - 1)) = (2 ^ (W - 1) + 1) * 2 ^ (p - (W - 1)) := by
        rw [Nat.add_mul, Nat.one_mul, Nat.mul_comm, ← e2]
      rw [this]
      exact Dvd.dvd.mul_right d1 _
    have d3 : ad ∣ 2 ^ p + (ad - 2 ^ p % ad) :=
      ⟨2 ^ p / ad + 1, by rw [Nat.mul_add, Nat.mul_one]; omega⟩
    have hJ : 1 ≤ 2 ^ (p - (W - 1)) := Nat.one_le_two_pow
    have hdl : ad - 2 ^ p % ad ≤ 2 ^ (p - (W - 1)) := by
      by_contra hcon
      have d4 := Nat.dvd_sub' d3 d2
      rw [Nat.add_sub_add_left] at d4
      have := Nat.le_of_dvd (Nat.sub_pos_of_lt (Nat.lt_of_not_le hcon)) d4
      omega
    calc (ad - 2 ^ p % ad) * 2 ^ (W - 1) ≤ 2 ^ (p - (W - 1)) * 2 ^ (W - 1) :=
          Nat.mul_le_mul_right _ hdl
      _ = 2 ^ p := e2.symm
  refine ⟨key, ?_⟩
  by_cases hrem : 2 ^ (W - 1) % ad = ad - 1
  · have := key hrem
    omega
  · calc (ad - 2 ^ p % ad) * 2 ^ (W - 1) ≤ (ad - 2 ^ p % ad) * (2 * anc) :=
          Nat.mul_le_mul_left _ (by omega)
      _ = 2 * (anc * (ad - 2 ^ p % ad)) := by ring
      _ ≤ 2 * 2 ^ p := by omega

/-- The exact multiplier `2 ^ p / ad + 1` times `ad` is `2 ^ p + delta`. -/
theorem smult_mul (ad p : Nat) (had : 1 ≤ ad) :
    (2 ^ p / ad + 1) * ad = 2 ^ p + (ad - 2 ^ p % ad) := by
  have h := Nat.div_add_mod (2 ^ p) ad
  have hr : 2 ^ p % ad < ad := Nat.mod_lt _ (by omega)
  have e : (2 ^ p / ad + 1) * ad = ad * (2 ^ p / ad) + ad := by ring
  omega

/-- The reconstruction with the exact multiplier at an exponent at which the
loop of `divmagic` exits. -/
theorem smagic_exact (W : Nat) (d n : Int) (p : Nat) (hW : 3 ≤ W) (h2 : 2 ≤ |d|)
    (hd : |d| ≤ 2 ^ (W - 1) - 1) (hn1 : -2 ^ (W - 1) ≤ n) (hn2 : n < 2 ^ (W - 1))
    (hp : W ≤ p) (hE : ¬ 2 ^ p ≤ sAnc W d * (sAd W d - 2 ^ p % sAd W d))
    (hq : 2 ^ p / sAd W d ≤ 2 ^ W - 2) :
    signedQuotient W (sfinish W d (sIdeal (sAd W d) (sAnc W d) p)).M
      (sfinish W d (sIdeal (sAd W d) (sAnc W d) p)).s d n = Int.tdiv n d := by
  obtain ⟨e1, e2, e3, e4, e5⟩ := sAnc_eq W d hW h2 hd
  have ht : sT W d = 2 ^ (W - 1) ∨ sT W d = 2 ^ (W - 1) + 1 := by
    rw [e4]; split_ifs
    · right; rfl
    · left; rfl
  obtain ⟨_, f2, f3, f4, f5, f6⟩ := anc_facts W d.natAbs (sT W d) hW e2 e3 ht
  rw [← e5] at f2 f3 f4 f5 f6
  rw [e1] at hE hq ⊢
  have hT := two_pow_pred_nat W (by omega)
  have hTi := two_pow_pred W (by omega)
  have hH : 1 ≤ 2 ^ (W - 1) := Nat.one_le_two_pow
  have hd0 : d ≠ 0 := by
    intro h; rw [h] at h2; simp at h2
  have hE' : sAnc W d * (d.natAbs - 2 ^ p % d.natAbs) < 2 ^ p := Nat.lt_of_not_le hE
  have hmT : 2 ^ p / d.natAbs + 1 ≤ 2 ^ W - 1 := by
    clear hTi hn1 hn2 hd h2 hd0
    omega
  -- the fields of the result
  have hM : (sfinish W d (sIdeal d.natAbs (sAnc W d) p)).M
      = if d < 0 then wrapS W (-(toS W (2 ^ p / d.natAbs + 1)))
        else toS W (2 ^ p / d.natAbs + 1) := by
    show (if d < 0 then wrapS W (-(toS W (uadd W (2 ^ p / d.natAbs) 1)))
      else toS W (uadd W (2 ^ p / d.natAbs) 1)) = _
    rw [uadd_eq W _ _ (by omega)]
  have hs : (sfinish W d (sIdeal d.natAbs (sAnc W d) p)).s = (p : Int) - (W : Int) := rfl
  have hsn : ((p : Int) - (W : Int)).toNat = p - W := by omega
  unfold signedQuotient
  simp only [hs, hsn]
  rw [signed_high_word W (2 ^ p / d.natAbs + 1) d n (by omega) hd0 (Nat.le_add_left 1 _) hmT
    _ hM]
  rw [ediv_ediv_pos _ _ _ (by positivity) (by positivity)]
  have hP : (2 : Int) ^ W * 2 ^ (p - W) = ((2 ^ p : Nat) : Int) := by
    push_cast
    rw [← pow_add]; congr 1; omega
  rw [hP]
  -- reduce to a positive divisor
  have hm := smult_mul d.natAbs p (by omega)
  have hred : ∀ y : Int, (-(2 ^ (W - 1) : Int) ≤ y) → y < (sT W d : Int) →
      (d < 0 → -(2 ^ (W - 1) : Int) < y) →
      (((2 ^ p / d.natAbs + 1 : Nat) : Int) * y / ((2 ^ p : Nat) : Int))
        + (if ((2 ^ p / d.natAbs + 1 : Nat) : Int) * y / ((2 ^ p : Nat) : Int) < 0
            then 1 else 0) = Int.tdiv y (d.natAbs : Int) := by
    intro y hy1 hy2 hy3
    rcases le_or_lt 0 y with hy | hy
    · apply recon_nonneg _ _ _ _ hy
      have hN : y.toNat < sT W d := by omega
      obtain ⟨b1, b2⟩ := sbound_low d.natAbs (sAnc W d) (sT W d) _ (2 ^ p) y.toNat (by omega)
        f2 f3 f4 hE' hN
      exact magic_floor (2 ^ p) d.natAbs _ _ y.toNat (by omega) hm b1 b2
    · have hN1 : 1 ≤ (-y).toNat := by omega
      have hN : (-y).toNat ≤ 2 ^ (W - 1) := by
        have : (-y).toNat ≤ ((2 ^ (W - 1) : Nat) : Int).toNat := by
          apply Int.toNat_le_toNat
          push_cast; linarith
        simpa using this
      have hb : ((-y).toNat % d.natAbs = d.natAbs - 1 →
            (d.natAbs - 2 ^ p % d.natAbs) * (-y).toNat ≤ 2 ^ p) ∧
          (d.natAbs - 2 ^ p % d.natAbs) * (-y).toNat ≤ 2 * 2 ^ p := by
        rcases Nat.lt_or_ge (-y).toNat (sT W d) with hlt | hge
        · obtain ⟨b1, b2⟩ := sbound_low d.natAbs (sAnc W d) (sT W d) _ (2 ^ p) (-y).toNat
            (by omega) f2 f3 f4 hE' hlt
          exact ⟨fun h => le_of_lt (b1 h), le_of_lt b2⟩
        · -- only for `d > 0` and `y = -2 ^ (W-1)`
          have hdpos : ¬ d < 0 := by
            intro hneg
            have h3 := hy3 hneg
            rw [e4, if_pos hneg] at hge
            have : (-y).toNat < 2 ^ (W - 1) := by
              have h4 : ((-y).toNat : Int) = -y := Int.toNat_of_nonneg (by linarith)
              have h5 : ((-y).toNat : Int) < ((2 ^ (W - 1) : Nat) : Int) := by
                rw [h4]; push_cast; linarith
              exact_mod_cast h5
            omega
          rw [e4, if_neg hdpos, Nat.add_zero] at hge
          have hNe : (-y).toNat = 2 ^ (W - 1) := by omega
          rw [hNe]
          have hanc : sAnc W d = 2 ^ (W - 1) - 1 - 2 ^ (W - 1) % d.natAbs := by
            rw [e5, e4, if_neg hdpos, Nat.add_zero]
          exact sbound_top W d.natAbs (sAnc W d) p (by omega) e2 hanc f4 hp hE'
      obtain ⟨c1, c2⟩ := magic_ceil (2 ^ p) d.natAbs _ _ (-y).toNat (by omega) hm
        (by have := Nat.mod_lt (2 ^ p) (show 0 < d.natAbs by omega); omega) hN1 hb.1 hb.2
      exact recon_neg _ _ _ _ hy (by positivity) c1 c2
  have hab := Int.abs_eq_natAbs d
  rcases lt_or_gt_of_ne hd0 with hneg | hpos
  · have hdn : d = -(d.natAbs : Int) := by
      rw [← hab, abs_of_neg hneg]; ring
    have e : (if d < 0 then -((2 ^ p / d.natAbs + 1 : Nat) : Int)
        else ((2 ^ p / d.natAbs + 1 : Nat) : Int)) * n
        = ((2 ^ p / d.natAbs + 1 : Nat) : Int) * (-n) := by
      rw [if_pos hneg]; ring
    rw [e]
    have hst : (sT W d : Int) = 2 ^ (W - 1) + 1 := by
      rw [e4, if_pos hneg]; push_cast; ring
    rw [hred (-n) (by linarith) (by rw [hst]; linarith) (fun _ => by linarith)]
    conv_rhs => rw [hdn]
    rw [Int.neg_tdiv, Int.tdiv_neg]
  · have hdn : d = (d.natAbs : Int) := by
      rw [← hab, abs_of_pos hpos]
    have e : (if d < 0 then -((2 ^ p / d.natAbs + 1 : Nat) : Int)
        else ((2 ^ p / d.natAbs + 1 : Nat) : Int)) * n
        = ((2 ^ p / d.natAbs + 1 : Nat) : Int) * n := by
      rw [if_neg (by linarith)]
    rw [e]
    have hst : (sT W d : Int) = 2 ^ (W - 1) := by
      rw [e4, if_neg (by linarith)]; push_cast; ring
    rw [hred n hn1 (by rw [hst]; exact hn2) (fun h => by linarith)]
    conv_rhs => rw [hdn]

theorem sloop_mono (W ad anc : Nat) :
    ∀ (fuel j : Nat) (st r : SState),
      sloop W ad anc fuel st = some r → sloop W ad anc (fuel + j) st = some r := by
  intro fuel
  induction fuel with
  | zero => intro j st r h; simp [sloop] at h
  | succ f ih =>
    intro j st r h
    rw [show f + 1 + j = (f + j) + 1 by omega]
    rw [sloop] at h ⊢
    by_cases hc : scond W ad (sstep W ad anc st) = true
    · simp only [hc, if_true] at h ⊢
      exact ih j _ r h
    · simpa [hc] using h

theorem uloop_mono (W d nc : Nat) :
    ∀ (fuel j : Nat) (st r : UState),
      uloop W d nc fuel st = some r → uloop W d nc (fuel + j) st = some r := by
  intro fuel
  induction fuel with
  | zero => intro j st r h; simp [uloop] at h
  | succ f ih =>
    intro j st r h
    rw [show f + 1 + j = (f + j) + 1 by omega]
    rw [uloop] at h ⊢
    by_cases hc : ucond W d (ustep W d nc st) = true
    · simp only [hc, if_true] at h ⊢
      exact ih j _ r h
    · simpa [hc] using h

theorem divmagic_mono (W fuel fuel' : Nat) (d : Int) (r : ms) (hle : fuel ≤ fuel')
    (h : divmagic W fuel d = some r) : divmagic W fuel' d = some r := by
  unfold divmagic at h ⊢
  cases hs : sloop W (sAd W d) (sAnc W d) fuel (sinit W d) with
  | none => rw [hs] at h; simp at h
  | some st =>
    rw [hs] at h
    have := sloop_mono W (sAd W d) (sAnc W d) fuel (fuel' - fuel) _ _ hs
    rw [show fuel + (fuel' - fuel) = fuel' by omega] at this
    rw [this]; exact h

theorem divmagicu_mono (W fuel fuel' d : Nat) (r : mu) (hle : fuel ≤ fuel')
    (h : divmagicu W fuel d = some r) : divmagicu W fuel' d = some r := by
  unfold divmagicu at h ⊢
  cases hs : uloop W d (uNc W d) fuel (uinit W d) with
  | none => rw [hs] at h; simp at h
  | some st =>
    rw [hs] at h
    have := uloop_mono W d (uNc W d) fuel (fuel' - fuel) _ _ hs
    rw [show fuel + (fuel' - fuel) = fuel' by omega] at this
    rw [this]; exact h

/-- C2. For a word size of 32 or 64 bits, every divisor with
`2 ≤ |d| ≤ 2^(W-1) - 1` and every dividend `-2^(W-1) ≤ n < 2^(W-1)`:
`divmagic` returns (with at least `W` units of fuel) a pair `(M, s)` whose
multiply-shift-sign-correct reconstruction is `n / d` rounded toward zero. -/
theorem divmagic_correct (W : Nat) (d n : Int) (fuel : Nat) (hW : W = 32 ∨ W = 64)
    (h2 : 2 ≤ |d|) (hd : |d| ≤ 2 ^ (W - 1) - 1)
    (hn1 : -2 ^ (W - 1) ≤ n) (hn2 : n < 2 ^ (W - 1)) (hf : W ≤ fuel) :
    ∃ r : ms, divmagic W fuel d = some r ∧ 0 ≤ r.s ∧
      signedQuotient W r.M r.s d n = Int.tdiv n d := by
  have hW3 : 3 ≤ W := by omega
  obtain ⟨p, g1, g2, g3, _, g5, _, g7⟩ := divmagic_spec W d hW3 h2 hd
  refine ⟨_, g3 fuel (by omega), ?_, smagic_exact W d n p hW3 h2 hd hn1 hn2 g1 g5 g7⟩
  show (0 : Int) ≤ (p : Int) - (W : Int)
  omega

theorem divmagic_correct_witness :
    ∃ r : ms, divmagic 32 32 (-7) = some r ∧ 0 ≤ r.s ∧
      signedQuotient 32 r.M r.s (-7) 100 = Int.tdiv 100 (-7) :=
  divmagic_correct 32 (-7) 100 32 (Or.inl rfl) (by decide) (by decide) (by decide)
    (by decide) (by decide)

/-- C5. At `W = 32`, `divmagic(7)` returns the multiplier with bit pattern
`0x92492493` and the shift 2, and the reconstruction with these constants
gives 14 for `n = 100`. -/
theorem divmagic_seven (fuel : Nat) (hf : 3 ≤ fuel) :
    divmagic 32 fuel 7 = some { M := -1840700269, s := 2 } ∧
      toU 32 (-1840700269) = 0x92492493 ∧
      signedQuotient 32 (-1840700269) 2 7 100 = 14 := by
  refine ⟨divmagic_mono 32 3 fuel 7 _ hf (by decide), by decide, by decide⟩

theorem divmagic_seven_witness :
    divmagic 32 3 7 = some { M := -1840700269, s := 2 } ∧
      toU 32 (-1840700269) = 0x92492493 ∧
      signedQuotient 32 (-1840700269) 2 7 100 = 14 :=
  divmagic_seven 3 (by decide)

/-- C6. At `W = 32`, `divmagicu(3)` returns `M = 0xAAAAAAAB`, `s = 1` and
the add indicator 0, and `(M * 100) >> (32 + 1) = 33`. -/
theorem divmagicu_three (fuel : Nat) (hf : 2 ≤ fuel) :
    divmagicu 32 fuel 3 = some { M := 0xAAAAAAAB, s := 1, a := 0 } ∧
      0xAAAAAAAB * 100 / 2 ^ (32 + 1) = 33 := by
  refine ⟨divmagicu_mono 32 2 fuel 3 _ hf (by decide), by decide⟩

theorem divmagicu_three_witness :
    divmagicu 32 2 3 = some { M := 0xAAAAAAAB, s := 1, a := 0 } ∧
      0xAAAAAAAB * 100 / 2 ^ (32 + 1) = 33 :=
  divmagicu_three 2 (by decide)

/-- C7. For a word size of 32 or 64 bits and every divisor with
`2 ≤ |d| ≤ 2^(W-1) - 1`, the loop of `divmagic` runs exactly `k` times
for some `1 ≤ k ≤ W` (fewer units of fuel give no result, `k` or more give
the result), and the returned shift is `s = k - 1`, so `0 ≤ s < W`. -/
theorem divmagic_terminates (W : Nat) (d : Int) (hW : W = 32 ∨ W = 64)
    (h2 : 2 ≤ |d|) (hd : |d| ≤ 2 ^ (W - 1) - 1) :
    ∃ (k : Nat) (r : ms), 1 ≤ k ∧ k ≤ W ∧
      (∀ fuel, fuel < k → divmagic W fuel d = none) ∧
      (∀ fuel, k ≤ fuel → divmagic W fuel d = some r) ∧
      r.s = (k : Int) - 1 ∧ 0 ≤ r.s ∧ r.s < W := by
  have hW3 : 3 ≤ W := by omega
  obtain ⟨p, g1, g2, g3, g4, _, _, _⟩ := divmagic_spec W d hW3 h2 hd
  refine ⟨p - (W - 1), _, by omega, by omega, g4, g3, ?_, ?_, ?_⟩
  · show (p : Int) - (W : Int) = _
    omega
  · show (0 : Int) ≤ (p : Int) - (W : Int)
    omega
  · show (p : Int) - (W : Int) < W
    omega

theorem divmagic_terminates_witness :
    ∃ (k : Nat) (r : ms), 1 ≤ k ∧ k ≤ 32 ∧
      (∀ fuel, fuel < k → divmagic 32 fuel 7 = none) ∧
      (∀ fuel, k ≤ fuel → divmagic 32 fuel 7 = some r) ∧
      r.s = (k : Int) - 1 ∧ 0 ≤ r.s ∧ r.s < (32 : Nat) :=
  divmagic_terminates 32 7 (Or.inl rfl) (by decide) (by decide)

/-- C4. For every odd `d`, `mulinv(d)` is odd and is the only `W`-bit value
`y` with `d * y ≡ 1 (mod 2^W)`. -/
theorem mulinv_unique (W : Nat) (d : Int) (fuel : Nat) (hW : W = 32 ∨ W = 64)
    (hd : d % 2 = 1) (hlo : -2 ^ (W - 1) ≤ d) (hhi : d < 2 ^ (W - 1)) (hf : 6 ≤ fuel) :
    ∃ x : Nat, mulinv W fuel d = some x ∧ x % 2 = 1 ∧
      ∀ y : Nat, y < 2 ^ W → (d * (y : Int)) % 2 ^ W = 1 → y = x := by
  obtain ⟨x, h1, h2, h3⟩ := mulinv_spec W 5 d fuel (by omega) hd
    (by rcases hW with h | h <;> subst h <;> norm_num) (by omega)
  refine ⟨x, h1, ?_, ?_⟩
  · have h4 : (2 : Int) ∣ 1 - d * x :=
      dvd_trans (dvd_pow_self 2 (by omega)) h3
    rcases Nat.mod_two_eq_zero_or_one x with h | h
    · exfalso
      have h5 : (2 : Int) ∣ (x : Int) := by
        exact_mod_cast Nat.dvd_of_mod_eq_zero h
      have h6 : (2 : Int) ∣ d * x := Dvd.dvd.mul_left h5 d
      have h7 := dvd_add h4 h6
      rw [show 1 - d * (x : Int) + d * x = 1 by ring] at h7
      omega
    · exact h
  · intro y hy hdy
    exact inverse_unique W d x y h2 hy h3 (dvd_of_emod_eq_one _ _ hdy)

theorem mulinv_unique_witness :
    ∃ x : Nat, mulinv 32 6 7 = some x ∧ x % 2 = 1 ∧
      ∀ y : Nat, y < 2 ^ 32 → ((7 : Int) * (y : Int)) % 2 ^ 32 = 1 → y = x :=
  mulinv_unique 32 7 6 (Or.inl rfl) (by decide) (by decide) (by decide) (by decide)

/-- C8, as stated, fails: at `W = 32` the divisor `2^32 - 2` meets the exit
predicate of `divmagicu` only at the ceiling `p = 64` and the returned
shift is `32`, not below `W`; the divisor `2^31 + 1` also leaves the loop
at the ceiling (there `q1` wraps to 0 at `p = 63`). -/
theorem divmagicu_shift_counterexample :
    divmagicu 32 33 (2 ^ 32 - 2) = some { M := 3, s := 32, a := 1 } ∧
      divmagicu 32 33 (2 ^ 31 + 1) = some { M := 4294967293, s := 32, a := 1 } ∧
      ¬ ∃ r : mu, divmagicu 32 33 (2 ^ 32 - 2) = some r ∧ r.s < 32 := by
  have h : divmagicu 32 33 (2 ^ 32 - 2) = some { M := 3, s := 32, a := 1 } := by
    decide
  refine ⟨h, by decide, ?_⟩
  rintro ⟨r, hr, hs⟩
  rw [h] at hr
  cases hr
  exact absurd hs (by decide)

/-- C8, amended. For a word size of 32 or 64 bits and every divisor
`1 ≤ d ≤ 2^W - 1`, the loop of `divmagicu` ends within `W + 1` iterations,
at the latest at the ceiling `p = 2 * W`; the returned shift satisfies
`0 ≤ s ≤ W`. -/
theorem divmagicu_shift_bound (W d fuel : Nat) (hW : W = 32 ∨ W = 64)
    (hd1 : 1 ≤ d) (hd : d ≤ 2 ^ W - 1) (hf : W + 1 ≤ fuel) :
    ∃ r : mu, divmagicu W fuel d = some r ∧ 0 ≤ r.s ∧ r.s ≤ W := by
  have hT1 : 1 ≤ 2 ^ W := Nat.one_le_two_pow
  obtain ⟨p, h1, h2, h3, _, _⟩ := divmagicu_spec W d fuel (by omega) hd1 (by omega) hf
  refine ⟨_, h3, ?_, ?_⟩
  · show (0 : Int) ≤ (p : Int) - (W : Int)
    omega
  · show (p : Int) - (W : Int) ≤ W
    omega

theorem divmagicu_shift_bound_witness :
    ∃ r : mu, divmagicu 32 33 7 = some r ∧ 0 ≤ r.s ∧ r.s ≤ (32 : Nat) :=
  divmagicu_shift_bound 32 7 33 (Or.inl rfl) (by decide) (by decide) (by decide)

/-- C9, as stated, fails: at `W = 32`, `divmagicu(7)` returns
`M = 0x24924925`, `s = 3`, `a = 1`, and for `n = 7` the high word of
`M * n + M` shifted right by 3 is 0, not `7 / 7 = 1`. -/
theorem divmagicu_add_counterexample :
    divmagicu 32 33 7 = some { M := 613566757, s := 3, a := 1 } ∧
      (613566757 * 7 + 613566757) / 2 ^ 32 / 2 ^ 3 ≠ 7 / 7 := by
  refine ⟨by decide, by decide⟩

/-- C9, amended. For a word size of 32 or 64 bits, every divisor
`1 ≤ d ≤ 2^W - 1` for which `divmagicu` returns `a = 1` and every dividend
`n < 2^W`: `n / d` is the high word of `M * n`, plus `n`, shifted right by
`s`. -/
theorem divmagicu_add_correct (W d n fuel : Nat) (hW : W = 32 ∨ W = 64)
    (hd1 : 1 ≤ d) (hd : d ≤ 2 ^ W - 1) (hn : n < 2 ^ W) (hf : W + 1 ≤ fuel) :
    ∃ r : mu, divmagicu W fuel d = some r ∧
      (r.a = 1 → n / d = (r.M * n / 2 ^ W + n) / 2 ^ r.s.toNat) := by
  have hT1 : 1 ≤ 2 ^ W := Nat.one_le_two_pow
  have hd' : d < 2 ^ W := by omega
  obtain ⟨p, h1, h2, h3, h4, h5⟩ := divmagicu_spec W d fuel (by omega) hd1 hd' hf
  obtain ⟨g1, g2, g3, _, g5⟩ := uNc_facts W d (by omega) hd1 hd'
  have hT := two_pow_pred_nat W (by omega)
  have hE := ucond_false W d (uNc W d) p hd1 hd' (by
    have : 1 ≤ 2 ^ (W - 1) := Nat.one_le_two_pow
    omega) g2 h2 h4
  have hmain := umagic_exact W d (uNc W d) p n hd1 g1 g3 (by omega) hE hn
  obtain ⟨_, f2, _, _, f5⟩ := ufinish_uIdeal W d (uNc W d) p (by omega) h1 h5
  generalize ufinish W (uIdeal W d (uNc W d) p) = r at *
  refine ⟨r, h3, ?_⟩
  intro ha
  have hs : r.s.toNat = p - W := by rw [f2]; simp
  rw [ha] at f5
  have e1 : r.M * n + 2 ^ W * n = ((2 ^ p - 1) / d + 1) * n := by
    rw [← f5]; simp; ring
  have e2 : 2 ^ p = 2 ^ W * 2 ^ (p - W) := by
    rw [← pow_add]; congr 1; omega
  rw [hs, ← hmain, ← e1, e2, ← Nat.div_div_eq_div_mul, Nat.add_mul_div_left _ _ (by omega)]

theorem divmagicu_add_correct_witness :
    ∃ r : mu, divmagicu 32 33 7 = some r ∧
      (r.a = 1 → 100 / 7 = (r.M * 100 / 2 ^ 32 + 100) / 2 ^ r.s.toNat) :=
  divmagicu_add_correct 32 7 100 33 (Or.inl rfl) (by decide) (by decide) (by decide)
    (by decide)

/-- C10, as stated, fails: at `W = 32` the loop of `mulinv(3)` performs 4
updates and that of `mulinv(1)` none, not 5; at `W = 64` the loop of
`mulinv(3)` performs 5 updates, not 6. -/
theorem mulinv_steps_counterexample :
    mulinvSteps 32 6 3 = some 4 ∧ mulinvSteps 32 6 1 = some 0 ∧
      mulinvSteps 64 7 3 = some 5 ∧ mulinvSteps 32 6 3 ≠ some 5 := by
  refine ⟨by decide, by decide, by decide, by decide⟩

/-- C10, amended. For every odd `d` the loop of `mulinv` stops after at
most 4 updates `x := x * (2 - d*x)` at `W = 32` and at most 5 at `W = 64`
(the seed is already correct to 3 bits and every update doubles that). -/
theorem mulinv_steps_bound (W : Nat) (d : Int) (fuel : Nat) (hW : W = 32 ∨ W = 64)
    (hd : d % 2 = 1) (hlo : -2 ^ (W - 1) ≤ d) (hhi : d < 2 ^ (W - 1)) (hf : 6 ≤ fuel) :
    ∃ k : Nat, mulinvSteps W fuel d = some k ∧ (W = 32 → k ≤ 4) ∧ (W = 64 → k ≤ 5) := by
  rcases hW with h | h
  · subst h
    obtain ⟨x, k, h1, _, h3⟩ := mloop_bounded 32 4 d fuel (by norm_num) hd (by norm_num)
      (by omega)
    exact ⟨k, by simp [mulinvSteps, h1], fun _ => h3, fun h => by omega⟩
  · subst h
    obtain ⟨x, k, h1, _, h3⟩ := mloop_bounded 64 5 d fuel (by norm_num) hd (by norm_num)
      (by omega)
    exact ⟨k, by simp [mulinvSteps, h1], fun h => by omega, fun _ => h3⟩

theorem mulinv_steps_bound_witness :
    ∃ k : Nat, mulinvSteps 32 6 7 = some k ∧ ((32 : Nat) = 32 → k ≤ 4) ∧
      ((32 : Nat) = 64 → k ≤ 5) :=
  mulinv_steps_bound 32 7 6 (Or.inl rfl) (by decide) (by decide) (by decide) (by decide)

/-! ## The driver loop -/

theorem mainLoop_mem (W : Nat) (d2 : Int) :
    ∀ (fuel : Nat) (i d : Int), d ∈ mainLoop W d2 fuel i → d ≠ 0 ∧ d ≤ d2 := by
  intro fuel
  induction fuel with
  | zero => intro i d h; simp [mainLoop] at h
  | succ f ih =>
    intro i d h
    rw [mainLoop] at h
    by_cases h1 : i ≤ d2
    · rw [if_pos h1] at h
      by_cases h2 : i = 0
      · rw [if_pos h2] at h
        exact ih _ d h
      · rw [if_neg h2] at h
        rcases List.mem_cons.1 h with h3 | h3
        · rw [h3]; exact ⟨h2, h1⟩
        · exact ih _ d h3
    · rw [if_neg h1] at h
      simp at h

theorem mainLoop_reach (W : Nat) (d2 : Int) (hW : 1 ≤ W) (hhi : d2 < 2 ^ (W - 1)) :
    ∀ (fuel : Nat) (i0 i : Int), -2 ^ (W - 1) ≤ i0 → i0 ≤ i → i ≤ d2 → i ≠ 0 →
      (i - i0).toNat < fuel → i ∈ mainLoop W d2 fuel i0 := by
  intro fuel
  induction fuel with
  | zero => intro i0 i _ _ _ _ h; omega
  | succ f ih =>
    intro i0 i h0 h1 h2 h3 h4
    rw [mainLoop, if_pos (by omega)]
    rcases eq_or_lt_of_le h1 with he | hlt
    · rw [he, if_neg h3]
      exact List.mem_cons_self _ _
    · have hw : wrapS W (i0 + 1) = i0 + 1 :=
        wrapS_of_range W _ hW (by linarith) (by linarith)
      rw [hw]
      have hrec := ih (i0 + 1) i (by linarith) (by omega) h2 h3 (by omega)
      by_cases hz : i0 = 0
      · rw [if_pos hz]; exact hrec
      · rw [if_neg hz]; exact List.mem_cons_of_mem _ hrec

/-- C11, defect of the driver: `main` does not enforce the precondition
`2 ≤ |d|` that `divmagic` documents (lines 102-103); it skips only `i == 0`.
For the ranges `[1, 1]`, `[-1, -1]` and `[-5, 5]` it calls `divmagic(1)` and
`divmagic(-1)` (`W = 32` and `W = 64`), so not every divisor it passes
satisfies `2 ≤ |d| ≤ 2^(W-1) - 1`; the pair `(M, s) = (1, 0)` that
`divmagic(1)` returns reconstructs `5 / 1` as 0 instead of 5. -/
theorem mainCalls_unit_divisor :
    mainCalls 32 2 1 1 = [1] ∧ mainCalls 32 2 (-1) (-1) = [-1] ∧
      mainCalls 64 2 1 1 = [1] ∧ mainCalls 64 2 (-1) (-1) = [-1] ∧
      mainCalls 32 12 (-5) 5 = [-5, -4, -3, -2, -1, 1, 2, 3, 4, 5] ∧
      ¬ (∀ d ∈ mainCalls 32 2 1 1, 2 ≤ |d| ∧ |d| ≤ 2 ^ (32 - 1) - 1) ∧
      divmagic 32 1 1 = some { M := 1, s := 0 } ∧
      signedQuotient 32 1 0 1 5 = 0 ∧ Int.tdiv 5 1 = 5 := by
  have h : mainCalls 32 2 1 1 = [1] := by decide
  refine ⟨h, by decide, by decide, by decide, by decide, ?_, by decide, by decide, by decide⟩
  intro hall
  have := (hall 1 (by rw [h]; exact List.mem_singleton_self 1)).1
  simp at this

/-! ## The loop states of `divmagicu` -/

/-- The loop of `divmagicu` from the closed form at exponent `p`: the exit
exponent, together with the facts that hold at every exponent before it. -/
theorem uloop_inv (W d nc : Nat) (hW : 4 ≤ W) (hd1 : 1 ≤ d) (hd : d < 2 ^ W)
    (hncd : (nc + 1) % d = 0) (hnc : nc < 2 ^ W) (hTd : 2 ^ W ≤ nc + d)
    (hncH : 2 ^ (W - 1) ≤ nc) :
    ∀ (fuel p : Nat), W ≤ p + 1 → p < 2 * W → (2 ^ p - 1) / d ≤ 2 ^ W - 2 →
      2 * W ≤ fuel + p →
      ∃ p', p < p' ∧ p' ≤ 2 * W ∧
        uloop W d nc fuel (uIdeal W d nc p) = some (uIdeal W d nc p') ∧
        ucond W d (uIdeal W d nc p') = false ∧
        (∀ k, p ≤ k → k < p' → (2 ^ k - 1) / d ≤ 2 ^ W - 2) ∧
        (∀ k, p < k → k < p' → ucond W d (uIdeal W d nc k) = true) := by
  have hnc0 : 0 < nc := by
    have : 1 ≤ 2 ^ (W - 1) := Nat.one_le_two_pow
    omega
  intro fuel
  induction fuel with
  | zero => intro p _ h2 _ h4; omega
  | succ f ih =>
    intro p h1 h2 h3 h4
    have hs := ustep_uIdeal W d nc p hW hd1 hd hnc0 hnc h1 (by omega) h3
    rw [uloop]
    simp only [hs]
    by_cases hc : ucond W d (uIdeal W d nc (p + 1)) = true
    · rw [if_pos hc]
      obtain ⟨c1, c2⟩ := ucond_true W d nc (p + 1) (by omega) hd1 hd hncd hnc hTd hncH hc
      obtain ⟨p', g1, g2, g3, g4, g5, g6⟩ := ih (p + 1) (by omega) c1 c2 (by omega)
      refine ⟨p', by omega, g2, g3, g4, ?_, ?_⟩
      · intro k hk1 hk2
        rcases Nat.eq_or_lt_of_le hk1 with h | h
        · rw [← h]; exact h3
        · exact g5 k h hk2
      · intro k hk1 hk2
        rcases Nat.eq_or_lt_of_le (show p + 1 ≤ k by omega) with h | h
        · rw [← h]; exact hc
        · exact g6 k h hk2
    · rw [if_neg hc]
      refine ⟨p + 1, by omega, by omega, rfl, by simpa using hc, ?_, ?_⟩
      · intro k hk1 hk2
        have : k = p := by omega
        rw [this]; exact h3
      · intro k hk1 hk2; omega

/-- The exit exponent of `divmagicu` and the loop states before it. -/
theorem divmagicu_trace (W d : Nat) (hW : 4 ≤ W) (hd1 : 1 ≤ d) (hd : d < 2 ^ W) :
    ∃ p, W ≤ p ∧ p ≤ 2 * W ∧
      (∀ fuel, W + 1 ≤ fuel →
        divmagicu W fuel d = some (ufinish W (uIdeal W d (uNc W d) p))) ∧
      ucond W d (uIdeal W d (uNc W d) p) = false ∧
      (∀ k, W ≤ k → k < p → ucond W d (uIdeal W d (uNc W d) k) = true) ∧
      (∀ k, k ≤ p - (W - 1) → ustate W d k = uIdeal W d (uNc W d) (W - 1 + k)) ∧
      (2 ^ p - 1) / d ≤ 2 * 2 ^ W - 3 := by
  obtain ⟨h1, h2, h3, _, h5⟩ := uNc_facts W d (by omega) hd1 hd
  have hT := two_pow_pred_nat W (by omega)
  have hH : 1 ≤ 2 ^ (W - 1) := Nat.one_le_two_pow
  have hq : (2 ^ (W - 1) - 1) / d ≤ 2 ^ W - 2 := by
    have : (2 ^ (W - 1) - 1) / d ≤ 2 ^ (W - 1) - 1 := Nat.div_le_self _ _
    omega
  obtain ⟨p, g1, g2, g3, g4, g5, g6⟩ := uloop_inv W d (uNc W d) hW hd1 hd h1 h2 h3 h5
    (W + 1) (W - 1) (by omega) (by omega) hq (by omega)
  have g7 := divmagicu_spec W d (W + 1) hW hd1 hd (le_refl _)
  refine ⟨p, by omega, g2, ?_, g4, fun k hk1 hk2 => g6 k (by omega) hk2, ?_, ?_⟩
  · intro fuel hf
    apply divmagicu_mono W (W + 1) fuel d _ hf
    unfold divmagicu
    rw [uinit_eq W d (by omega) hd1 hd, g3]
    rfl
  · intro k
    induction k with
    | zero =>
      intro _
      show uinit W d = _
      rw [uinit_eq W d (by omega) hd1 hd]
      rfl
    | succ j ih =>
      intro hj
      have e : ustate W d (j + 1) = ustep W d (uNc W d) (ustate W d j) := by
        unfold ustate
        rw [Function.iterate_succ_apply']
      rw [e, ih (by omega)]
      rw [ustep_uIdeal W d (uNc W d) (W - 1 + j) hW hd1 hd (by omega) h2 (by omega) (by omega)
        (g5 (W - 1 + j) (by omega) (by omega))]
      rfl
  · have e : p = (p - 1) + 1 := by omega
    have hprev := g5 (p - 1) (by omega) (by omega)
    rw [e, two_pow_succ_pred, (div_mod_double_succ (2 ^ (p - 1) - 1) d (by omega)).1]
    split_ifs <;> omega

/-- C12. For a word size of 32 or 64 bits and every divisor
`1 ≤ d ≤ 2^W - 1`: with `p = W + s` the final exponent, `divmagicu` returns
`a = 1` exactly when the exact multiplier `(2^p - 1) / d + 1` is at least
`2^W` and `a = 0` otherwise, and the returned `M` is the exact multiplier
reduced modulo `2^W`; the tests against `MAX_INT-1` and `MAX_POW2` never set
the indicator for a multiplier that fits in `W` bits. -/
theorem divmagicu_add_indicator (W d fuel : Nat) (hW : W = 32 ∨ W = 64)
    (hd1 : 1 ≤ d) (hd : d ≤ 2 ^ W - 1) (hf : W + 1 ≤ fuel) :
    ∃ r : mu, divmagicu W fuel d = some r ∧ 0 ≤ r.s ∧ (r.a = 0 ∨ r.a = 1) ∧
      (r.a = 1 ↔ 2 ^ W ≤ (2 ^ (W + r.s.toNat) - 1) / d + 1) ∧
      (r.a = 0 ↔ (2 ^ (W + r.s.toNat) - 1) / d + 1 < 2 ^ W) ∧
      r.M = ((2 ^ (W + r.s.toNat) - 1) / d + 1) % 2 ^ W ∧
      (r.a = 0 → r.M = (2 ^ (W + r.s.toNat) - 1) / d + 1) := by
  have hT1 : 1 ≤ 2 ^ W := Nat.one_le_two_pow
  obtain ⟨p, h1, h2, h3, _, h5⟩ := divmagicu_spec W d fuel (by omega) hd1 (by omega) hf
  obtain ⟨_, f2, f3, f4, _⟩ := ufinish_uIdeal W d (uNc W d) p (by omega) h1 h5
  have fM : (ufinish W (uIdeal W d (uNc W d) p)).M = ((2 ^ p - 1) / d + 1) % 2 ^ W := by
    show uadd W (((2 ^ p - 1) / d) % 2 ^ W) 1 = _
    rw [uadd_mod]
  generalize ufinish W (uIdeal W d (uNc W d) p) = r at *
  have hs : W + r.s.toNat = p := by rw [f2]; simp; omega
  refine ⟨r, h3, by rw [f2]; positivity, f3, ?_, ?_, ?_, ?_⟩ <;> rw [hs]
  · exact f4
  · constructor
    · intro h0
      by_contra hcon
      have := f4.2 (by omega)
      omega
    · intro hlt
      rcases f3 with h | h
      · exact h
      · have := f4.1 h
        omega
  · exact fM
  · intro h0
    have hlt : (2 ^ p - 1) / d + 1 < 2 ^ W := by
      by_contra hcon
      have := f4.2 (by omega)
      omega
    rw [fM, Nat.mod_eq_of_lt hlt]

theorem divmagicu_add_indicator_witness :
    ∃ r : mu, divmagicu 32 33 7 = some r ∧ 0 ≤ r.s ∧ (r.a = 0 ∨ r.a = 1) ∧
      (r.a = 1 ↔ 2 ^ 32 ≤ (2 ^ (32 + r.s.toNat) - 1) / 7 + 1) ∧
      (r.a = 0 ↔ (2 ^ (32 + r.s.toNat) - 1) / 7 + 1 < 2 ^ 32) ∧
      r.M = ((2 ^ (32 + r.s.toNat) - 1) / 7 + 1) % 2 ^ 32 ∧
      (r.a = 0 → r.M = (2 ^ (32 + r.s.toNat) - 1) / 7 + 1) :=
  divmagicu_add_indicator 32 7 33 (Or.inl rfl) (by decide) (by decide) (by decide)

/-- C15. For a word size of 32 or 64 bits and every divisor
`1 ≤ d ≤ 2^W - 1`, with `nc = 2^W - 1 - ((2^W - d) mod d)`: the loop of
`divmagicu` runs `K` times, and before it (`p = W-1`) and after each of its
iterations, with exponent `p`, `r1 = 2^p mod nc` and `r2 = (2^p - 1) mod d`
exactly, `q1 = (2^p / nc) mod 2^W` and `q2 = ((2^p - 1) / d) mod 2^W`; the
operands of the two comparisons are computed without wrap-around and the
comparisons decide `2*r1 ≥ nc` and `2*r2 + 1 ≥ d`. -/
theorem divmagicu_invariant (W d : Nat) (hW : W = 32 ∨ W = 64)
    (hd1 : 1 ≤ d) (hd : d ≤ 2 ^ W - 1) :
    uNc W d = 2 ^ W - 1 - (2 ^ W - d) % d ∧
    ∃ K : Nat, 1 ≤ K ∧ K ≤ W + 1 ∧
      (∀ k, 1 ≤ k → k < K → ucond W d (ustate W d k) = true) ∧
      ucond W d (ustate W d K) = false ∧
      (∀ fuel, W + 1 ≤ fuel → divmagicu W fuel d = some (ufinish W (ustate W d K))) ∧
      ∀ k, k ≤ K →
        (ustate W d k).p = (W : Int) - 1 + k ∧
        (ustate W d k).r1 = 2 ^ (W - 1 + k) % uNc W d ∧
        (ustate W d k).r2 = (2 ^ (W - 1 + k) - 1) % d ∧
        (ustate W d k).q1 = (2 ^ (W - 1 + k) / uNc W d) % 2 ^ W ∧
        (ustate W d k).q2 = ((2 ^ (W - 1 + k) - 1) / d) % 2 ^ W ∧
        (ustate W d k).r1 < uNc W d ∧
        (ustate W d k).r2 < d ∧
        usub W (uNc W d) (ustate W d k).r1 = uNc W d - (ustate W d k).r1 ∧
        uadd W (ustate W d k).r2 1 = (ustate W d k).r2 + 1 ∧
        usub W d (ustate W d k).r2 = d - (ustate W d k).r2 ∧
        ((ustate W d k).r1 ≥ usub W (uNc W d) (ustate W d k).r1 ↔
          uNc W d ≤ 2 * (ustate W d k).r1) ∧
        (uadd W (ustate W d k).r2 1 ≥ usub W d (ustate W d k).r2 ↔
          d ≤ 2 * (ustate W d k).r2 + 1) := by
  have hT1 : 1 ≤ 2 ^ W := Nat.one_le_two_pow
  have hd' : d < 2 ^ W := by omega
  have hW4 : 4 ≤ W := by omega
  obtain ⟨_, n2, _, _, n5⟩ := uNc_facts W d (by omega) hd1 hd'
  have hH : 1 ≤ 2 ^ (W - 1) := Nat.one_le_two_pow
  constructor
  · rw [uNc_eq W d hd1 hd']
    congr 1
    conv_lhs => rw [show 2 ^ W = (2 ^ W - d) + d by omega]
    rw [Nat.add_mod_right]
  obtain ⟨p, g1, g2, g3, g4, g5, g6, _⟩ := divmagicu_trace W d hW4 hd1 hd'
  have hpK : W - 1 + (p - (W - 1)) = p := by omega
  refine ⟨p - (W - 1), by omega, by omega, ?_, ?_, ?_, ?_⟩
  · intro k hk1 hk2
    rw [g6 k (by omega)]
    exact g5 (W - 1 + k) (by omega) (by omega)
  · rw [g6 (p - (W - 1)) (le_refl _), hpK]
    exact g4
  · intro fuel hf
    rw [g6 (p - (W - 1)) (le_refl _), hpK]
    exact g3 fuel hf
  · intro k hk
    rw [g6 k hk]
    have hr1 : 2 ^ (W - 1 + k) % uNc W d < uNc W d := Nat.mod_lt _ (by omega)
    have hr2 : (2 ^ (W - 1 + k) - 1) % d < d := Nat.mod_lt _ (by omega)
    have c1 := usub_eq W (uNc W d) (2 ^ (W - 1 + k) % uNc W d) (by omega) n2
    have c2 := uadd_eq W ((2 ^ (W - 1 + k) - 1) % d) 1 (by omega)
    have c3 := usub_eq W d ((2 ^ (W - 1 + k) - 1) % d) (by omega) hd'
    refine ⟨?_, rfl, rfl, rfl, rfl, hr1, hr2, c1, c2, c3, ?_, ?_⟩
    · show ((W - 1 + k : Nat) : Int) = (W : Int) - 1 + k
      omega
    · show 2 ^ (W - 1 + k) % uNc W d ≥ usub W (uNc W d) (2 ^ (W - 1 + k) % uNc W d) ↔
        uNc W d ≤ 2 * (2 ^ (W - 1 + k) % uNc W d)
      rw [c1]; omega
    · show uadd W ((2 ^ (W - 1 + k) - 1) % d) 1 ≥ usub W d ((2 ^ (W - 1 + k) - 1) % d) ↔
        d ≤ 2 * ((2 ^ (W - 1 + k) - 1) % d) + 1
      rw [c2, c3]; omega

theorem divmagicu_invariant_witness :
    uNc 32 7 = 2 ^ 32 - 1 - (2 ^ 32 - 7) % 7 ∧
    ∃ K : Nat, 1 ≤ K ∧ K ≤ 32 + 1 ∧
      (∀ k, 1 ≤ k → k < K → ucond 32 7 (ustate 32 7 k) = true) ∧
      ucond 32 7 (ustate 32 7 K) = false ∧
      (∀ fuel, 32 + 1 ≤ fuel → divmagicu 32 fuel 7 = some (ufinish 32 (ustate 32 7 K))) ∧
      ∀ k, k ≤ K →
        (ustate 32 7 k).p = ((32 : Nat) : Int) - 1 + k ∧
        (ustate 32 7 k).r1 = 2 ^ (32 - 1 + k) % uNc 32 7 ∧
        (ustate 32 7 k).r2 = (2 ^ (32 - 1 + k) - 1) % 7 ∧
        (ustate 32 7 k).q1 = (2 ^ (32 - 1 + k) / uNc 32 7) % 2 ^ 32 ∧
        (ustate 32 7 k).q2 = ((2 ^ (32 - 1 + k) - 1) / 7) % 2 ^ 32 ∧
        (ustate 32 7 k).r1 < uNc 32 7 ∧
        (ustate 32 7 k).r2 < 7 ∧
        usub 32 (uNc 32 7) (ustate 32 7 k).r1 = uNc 32 7 - (ustate 32 7 k).r1 ∧
        uadd 32 (ustate 32 7 k).r2 1 = (ustate 32 7 k).r2 + 1 ∧
        usub 32 7 (ustate 32 7 k).r2 = 7 - (ustate 32 7 k).r2 ∧
        ((ustate 32 7 k).r1 ≥ usub 32 (uNc 32 7) (ustate 32 7 k).r1 ↔
          uNc 32 7 ≤ 2 * (ustate 32 7 k).r1) ∧
        (uadd 32 (ustate 32 7 k).r2 1 ≥ usub 32 7 (ustate 32 7 k).r2 ↔
          7 ≤ 2 * (ustate 32 7 k).r2 + 1) :=
  divmagicu_invariant 32 7 (Or.inl rfl) (by decide) (by decide)

/-! ## The loop states of `divmagic` -/

/-- The exit exponent of `divmagic`, the bounds that hold before it and the
loop states up to it. -/
theorem divmagic_trace (W : Nat) (d : Int) (hW : 3 ≤ W) (h2 : 2 ≤ |d|)
    (hd : |d| ≤ 2 ^ (W - 1) - 1) :
    ∃ p, W ≤ p ∧ p ≤ 2 * W - 2 ∧
      (∀ fuel, p - (W - 1) ≤ fuel →
        divmagic W fuel d = some (sfinish W d (sIdeal (sAd W d) (sAnc W d) p))) ∧
      (∀ fuel, fuel < p - (W - 1) → divmagic W fuel d = none) ∧
      ¬ 2 ^ p ≤ sAnc W d * (sAd W d - 2 ^ p % sAd W d) ∧
      (∀ k, W ≤ k → k < p → 2 ^ k ≤ sAnc W d * (sAd W d - 2 ^ k % sAd W d)) ∧
      2 ^ p / sAd W d ≤ 2 ^ W - 2 ∧
      (∀ k, W ≤ k + 1 → k < p →
        2 ^ k / sAnc W d < 2 ^ (W - 1) ∧ 2 ^ k / sAd W d < 2 ^ (W - 1)) ∧
      (∀ j, j ≤ p - (W - 1) → sstate W d j = sIdeal (sAd W d) (sAnc W d) (W - 1 + j)) ∧
      2 ≤ sAnc W d ∧ sAnc W d ≤ 2 ^ (W - 1) := by
  obtain ⟨p, g1, g2, g3, g4, g5, g6, g7⟩ := divmagic_spec W d hW h2 hd
  obtain ⟨e1, e2, e3, e4, e5⟩ := sAnc_eq W d hW h2 hd
  have ht : sT W d = 2 ^ (W - 1) ∨ sT W d = 2 ^ (W - 1) + 1 := by
    rw [e4]; split_ifs
    · right; rfl
    · left; rfl
  obtain ⟨_, f2, f3, f4, f5, f6⟩ := anc_facts W d.natAbs (sT W d) hW e2 e3 ht
  rw [← e5] at f2 f3 f4 f5 f6
  rw [← e1] at f2 f3 f4 e2 e3
  have hT := two_pow_pred_nat W (by omega)
  have hHn : 4 ≤ 2 ^ (W - 1) := by
    calc 4 = 2 ^ 2 := by norm_num
      _ ≤ 2 ^ (W - 1) := Nat.pow_le_pow_right (by norm_num) (by omega)
  have hancH : sAnc W d ≤ 2 ^ (W - 1) := by omega
  have hb : ∀ k, W ≤ k + 1 → k < p →
      2 ^ k / sAnc W d < 2 ^ (W - 1) ∧ 2 ^ k / sAd W d < 2 ^ (W - 1) := by
    intro k hk1 hk2
    rcases Nat.eq_or_lt_of_le hk1 with he | hlt
    · have hk : k = W - 1 := by omega
      rw [hk]
      exact ⟨Nat.div_lt_self (by omega) (by omega), Nat.div_lt_self (by omega) (by omega)⟩
    · obtain ⟨c1, c2⟩ := scond_true_bounds W (sAd W d) (sAnc W d) k hW e2 e3 f2 hancH
        (by omega) (g6 k (by omega) hk2)
      exact ⟨c1, half_quotient W (sAd W d) k (by omega) (by omega) c2⟩
  refine ⟨p, g1, g2, g3, g4, g5, g6, g7, hb, ?_, f6, hancH⟩
  intro j
  induction j with
  | zero =>
    intro _
    show sinit W d = _
    rw [sinit_eq W d (by omega)]
    rfl
  | succ i ih =>
    intro hj
    have e : sstate W d (i + 1) = sstep W (sAd W d) (sAnc W d) (sstate W d i) := by
      unfold sstate
      rw [Function.iterate_succ_apply']
    obtain ⟨b1, b2⟩ := hb (W - 1 + i) (by omega) (by omega)
    rw [e, ih (by omega), sstep_sIdeal W (sAd W d) (sAnc W d) (W - 1 + i) (by omega) (by omega)
      (by omega) (by omega) hancH b1 b2]
    rfl

/-- The loop condition of `divmagic` on a state with `r2 < ad`, written
out. -/
theorem scond_iff (W ad : Nat) (st : SState) (hr : st.r2 < ad) (hadT : ad < 2 ^ W) :
    scond W ad st = true ↔
      (st.q1 < ad - st.r2 ∨ (st.q1 = ad - st.r2 ∧ st.r1 = 0)) := by
  unfold scond
  simp only [usub_eq W ad _ (le_of_lt hr) hadT, Bool.or_eq_true, Bool.and_eq_true,
    decide_eq_true_eq]

/-- C13, as stated, fails: at `W = 32` and `d = 7` the condition
`q1 < delta` holds after the first iteration (`p = 32`, `q1 = 2`,
`delta = 7 - 4`), yet the loop does not stop there: it needs three
iterations and returns `s = 2`, that is `p = 34`. -/
theorem divmagic_exit_counterexample :
    (sstate 32 7 1).p = 32 ∧ (sstate 32 7 1).q1 < 7 - (sstate 32 7 1).r2 ∧
      divmagic 32 1 7 = none ∧ divmagic 32 2 7 = none ∧
      divmagic 32 3 7 = some { M := -1840700269, s := 2 } := by
  refine ⟨by decide, by decide, by decide, by decide, by decide⟩

/-- C13, amended. For a word size of 32 or 64 bits and every divisor with
`2 ≤ |d| ≤ 2^(W-1) - 1`: the condition `q1 < delta` or (`q1 = delta` and
`r1 = 0`), with `delta = |d| - r2`, is the continuation test of the loop of
`divmagic`; the loop stops after the first iteration, at an exponent
`p ≥ W`, after which the condition does not hold, and `divmagic` then returns
`M = q2 + 1` (negated when `d < 0`) and `s = p - W`. -/
theorem divmagic_exit (W : Nat) (d : Int) (hW : W = 32 ∨ W = 64)
    (h2 : 2 ≤ |d|) (hd : |d| ≤ 2 ^ (W - 1) - 1) :
    ∃ K : Nat, 1 ≤ K ∧ K ≤ W ∧
      (∀ k, 1 ≤ k → k < K →
        ((sstate W d k).q1 < d.natAbs - (sstate W d k).r2 ∨
          ((sstate W d k).q1 = d.natAbs - (sstate W d k).r2 ∧ (sstate W d k).r1 = 0))) ∧
      ¬ ((sstate W d K).q1 < d.natAbs - (sstate W d K).r2 ∨
          ((sstate W d K).q1 = d.natAbs - (sstate W d K).r2 ∧ (sstate W d K).r1 = 0)) ∧
      (sstate W d K).p = (W : Int) - 1 + K ∧
      (sstate W d K).q2 + 1 < 2 ^ W ∧
      (∀ fuel, fuel < K → divmagic W fuel d = none) ∧
      ∀ fuel, K ≤ fuel →
        divmagic W fuel d = some
          { M := if d < 0 then wrapS W (-(toS W ((sstate W d K).q2 + 1)))
                 else toS W ((sstate W d K).q2 + 1),
            s := (sstate W d K).p - W } := by
  have hW3 : 3 ≤ W := by omega
  obtain ⟨p, g1, g2, g3, g4, g5, g6, g7, _, g9, g10, _⟩ := divmagic_trace W d hW3 h2 hd
  obtain ⟨e1, e2, e3, _, _⟩ := sAnc_eq W d hW3 h2 hd
  have hT := two_pow_pred_nat W (by omega)
  have hH : 1 ≤ 2 ^ (W - 1) := Nat.one_le_two_pow
  have hadT : d.natAbs < 2 ^ W := by omega
  have hanc0 : 0 < sAnc W d := by omega
  have hpK : W - 1 + (p - (W - 1)) = p := by omega
  have hc : ∀ k, scond W d.natAbs (sIdeal d.natAbs (sAnc W d) k) = true ↔
      ((sIdeal d.natAbs (sAnc W d) k).q1 < d.natAbs - (sIdeal d.natAbs (sAnc W d) k).r2 ∨
        ((sIdeal d.natAbs (sAnc W d) k).q1 = d.natAbs - (sIdeal d.natAbs (sAnc W d) k).r2 ∧
          (sIdeal d.natAbs (sAnc W d) k).r1 = 0)) := fun k =>
    scond_iff W d.natAbs _ (Nat.mod_lt _ (by omega)) hadT
  rw [e1] at g3 g5 g6 g7 g9
  refine ⟨p - (W - 1), by omega, by omega, ?_, ?_, ?_, ?_, g4, ?_⟩
  · intro k hk1 hk2
    rw [g9 k (by omega), ← hc]
    exact (scond_sIdeal W d.natAbs (sAnc W d) _ (by omega) hadT hanc0).2
      (g6 (W - 1 + k) (by omega) (by omega))
  · rw [g9 _ (le_refl _), hpK, ← hc]
    intro h
    exact g5 ((scond_sIdeal W d.natAbs (sAnc W d) _ (by omega) hadT hanc0).1 h)
  · rw [g9 _ (le_refl _), hpK]
    show ((p : Nat) : Int) = (W : Int) - 1 + ((p - (W - 1) : Nat) : Int)
    omega
  · rw [g9 _ (le_refl _), hpK]
    show 2 ^ p / d.natAbs + 1 < 2 ^ W
    omega
  · intro fuel hf
    rw [g3 fuel hf, g9 _ (le_refl _), hpK]
    have hq : uadd W (2 ^ p / d.natAbs) 1 = 2 ^ p / d.natAbs + 1 := uadd_eq W _ _ (by omega)
    congr 1
    unfold sfinish
    simp only [sIdeal, hq]

theorem divmagic_exit_witness :
    ∃ K : Nat, 1 ≤ K ∧ K ≤ 32 ∧
      (∀ k, 1 ≤ k → k < K →
        ((sstate 32 7 k).q1 < (7 : Int).natAbs - (sstate 32 7 k).r2 ∨
          ((sstate 32 7 k).q1 = (7 : Int).natAbs - (sstate 32 7 k).r2 ∧
            (sstate 32 7 k).r1 = 0))) ∧
      ¬ ((sstate 32 7 K).q1 < (7 : Int).natAbs - (sstate 32 7 K).r2 ∨
          ((sstate 32 7 K).q1 = (7 : Int).natAbs - (sstate 32 7 K).r2 ∧
            (sstate 32 7 K).r1 = 0)) ∧
      (sstate 32 7 K).p = ((32 : Nat) : Int) - 1 + K ∧
      (sstate 32 7 K).q2 + 1 < 2 ^ 32 ∧
      (∀ fuel, fuel < K → divmagic 32 fuel 7 = none) ∧
      ∀ fuel, K ≤ fuel →
        divmagic 32 fuel 7 = some
          { M := if (7 : Int) < 0 then wrapS 32 (-(toS 32 ((sstate 32 7 K).q2 + 1)))
                 else toS 32 ((sstate 32 7 K).q2 + 1),
            s := (sstate 32 7 K).p - (32 : Nat) } :=
  divmagic_exit 32 7 (Or.inl rfl) (by decide) (by decide)

/-- C14. For a word size of 32 or 64 bits and every divisor with
`2 ≤ |d| ≤ 2^(W-1) - 1`, with `t = 2^(W-1) + (1 if d < 0 else 0)` and
`anc = t - 1 - (t mod |d|)`: the loop of `divmagic` runs `K` times, and
before it (`p = W-1`) and after each of its iterations, with exponent `p`,
the variables are exactly `q1 = 2^p / anc`, `r1 = 2^p mod anc`,
`q2 = 2^p / |d|`, `r2 = 2^p mod |d|`; in every iteration the updates
`2*q1`, `2*r1`, `2*q2`, `2*r2` and `+1` stay below `2^W`, as does the final
`q2 + 1`. -/
theorem divmagic_invariant (W : Nat) (d : Int) (hW : W = 32 ∨ W = 64)
    (h2 : 2 ≤ |d|) (hd : |d| ≤ 2 ^ (W - 1) - 1) :
    sAd W d = d.natAbs ∧
    sAnc W d = (2 ^ (W - 1) + (if d < 0 then 1 else 0)) - 1
      - (2 ^ (W - 1) + (if d < 0 then 1 else 0)) % d.natAbs ∧
    ∃ K : Nat, 1 ≤ K ∧ K ≤ W ∧
      (∀ fuel, fuel < K → divmagic W fuel d = none) ∧
      (∀ fuel, K ≤ fuel → divmagic W fuel d = some (sfinish W d (sstate W d K))) ∧
      (sstate W d K).q2 + 1 < 2 ^ W ∧
      ∀ k, k ≤ K →
        (sstate W d k).p = (W : Int) - 1 + k ∧
        (sstate W d k).q1 = 2 ^ (W - 1 + k) / sAnc W d ∧
        (sstate W d k).r1 = 2 ^ (W - 1 + k) % sAnc W d ∧
        (sstate W d k).q2 = 2 ^ (W - 1 + k) / d.natAbs ∧
        (sstate W d k).r2 = 2 ^ (W - 1 + k) % d.natAbs ∧
        (k < K →
          2 * (sstate W d k).q1 + 1 < 2 ^ W ∧ 2 * (sstate W d k).r1 < 2 ^ W ∧
          2 * (sstate W d k).q2 + 1 < 2 ^ W ∧ 2 * (sstate W d k).r2 < 2 ^ W) := by
  have hW3 : 3 ≤ W := by omega
  obtain ⟨p, g1, g2, g3, g4, _, _, g7, g8, g9, g10, g11⟩ := divmagic_trace W d hW3 h2 hd
  obtain ⟨e1, e2, e3, e4, e5⟩ := sAnc_eq W d hW3 h2 hd
  have hT := two_pow_pred_nat W (by omega)
  have hH : 1 ≤ 2 ^ (W - 1) := Nat.one_le_two_pow
  have hpK : W - 1 + (p - (W - 1)) = p := by omega
  refine ⟨e1, by rw [e5, e4], p - (W - 1), by omega, by omega, g4, ?_, ?_, ?_⟩
  · intro fuel hf
    rw [g3 fuel hf, g9 _ (le_refl _), hpK]
  · rw [g9 _ (le_refl _), hpK]
    show 2 ^ p / sAd W d + 1 < 2 ^ W
    omega
  · intro k hk
    rw [g9 k hk]
    refine ⟨?_, rfl, rfl, by rw [← e1]; rfl, by rw [← e1]; rfl, ?_⟩
    · show ((W - 1 + k : Nat) : Int) = (W : Int) - 1 + k
      omega
    · intro hlt
      obtain ⟨b1, b2⟩ := g8 (W - 1 + k) (by omega) (by omega)
      have hr1 : 2 ^ (W - 1 + k) % sAnc W d < sAnc W d := Nat.mod_lt _ (by omega)
      have hr2 : 2 ^ (W - 1 + k) % sAd W d < sAd W d := Nat.mod_lt _ (by omega)
      show 2 * (2 ^ (W - 1 + k) / sAnc W d) + 1 < 2 ^ W ∧
        2 * (2 ^ (W - 1 + k) % sAnc W d) < 2 ^ W ∧
        2 * (2 ^ (W - 1 + k) / sAd W d) + 1 < 2 ^ W ∧
        2 * (2 ^ (W - 1 + k) % sAd W d) < 2 ^ W
      omega

theorem divmagic_invariant_witness :
    sAd 32 7 = (7 : Int).natAbs ∧
    sAnc 32 7 = (2 ^ (32 - 1) + (if (7 : Int) < 0 then 1 else 0)) - 1
      - (2 ^ (32 - 1) + (if (7 : Int) < 0 then 1 else 0)) % (7 : Int).natAbs ∧
    ∃ K : Nat, 1 ≤ K ∧ K ≤ 32 ∧
      (∀ fuel, fuel < K → divmagic 32 fuel 7 = none) ∧
      (∀ fuel, K ≤ fuel → divmagic 32 fuel 7 = some (sfinish 32 7 (sstate 32 7 K))) ∧
      (sstate 32 7 K).q2 + 1 < 2 ^ 32 ∧
      ∀ k, k ≤ K →
        (sstate 32 7 k).p = ((32 : Nat) : Int) - 1 + k ∧
        (sstate 32 7 k).q1 = 2 ^ (32 - 1 + k) / sAnc 32 7 ∧
        (sstate 32 7 k).r1 = 2 ^ (32 - 1 + k) % sAnc 32 7 ∧
        (sstate 32 7 k).q2 = 2 ^ (32 - 1 + k) / (7 : Int).natAbs ∧
        (sstate 32 7 k).r2 = 2 ^ (32 - 1 + k) % (7 : Int).natAbs ∧
        (k < K →
          2 * (sstate 32 7 k).q1 + 1 < 2 ^ 32 ∧ 2 * (sstate 32 7 k).r1 < 2 ^ 32 ∧
          2 * (sstate 32 7 k).q2 + 1 < 2 ^ 32 ∧ 2 * (sstate 32 7 k).r2 < 2 ^ 32) :=
  divmagic_invariant 32 7 (Or.inl rfl) (by decide) (by decide)

/-! ## The Newton iteration, continued -/

theorem emod_two_pow_of_dvd (e : Nat) (z : Int) (he : 1 ≤ e) (h : (2 : Int) ^ e ∣ 1 - z) :
    z % 2 ^ e = 1 :=
  emod_eq_one_of_dvd _ _ (one_lt_two_pow_int e he) h

/-- C16. For a word size of 32 or 64 bits and every odd `d`: the seed
`x0 = d` satisfies `d * x0 ≡ 1 (mod 8)`, and for every `k ≥ 1` and every `x`
with `d * x ≡ 1 (mod 2^k)` the update `x * (2 - d * x)`, computed with
wrap-around, satisfies `d * x' ≡ 1 (mod 2^min(2k, W))`. -/
theorem mulinv_newton (W : Nat) (d : Int) (hW : W = 32 ∨ W = 64) (hd : d % 2 = 1) :
    (d * d) % 8 = 1 ∧
      ∀ (k : Nat) (x : Int), 1 ≤ k → (d * x) % 2 ^ k = 1 →
        (d * wrapS W (x * wrapS W (2 - wrapS W (d * x)))) % 2 ^ (min (2 * k) W) = 1 := by
  constructor
  · have h := odd_sq_dvd d hd
    have := emod_two_pow_of_dvd 3 (d * d) (by norm_num) h
    simpa using this
  · intro k x hk hx
    have h1 := dvd_of_emod_eq_one _ _ hx
    have h2 := newton_step W k d x (by omega) h1 (min (2 * k) W) (Nat.min_le_left _ _)
      (Nat.min_le_right _ _)
    exact emod_two_pow_of_dvd _ _ (by
      rcases hW with h | h <;> subst h <;> omega) h2

theorem mulinv_newton_witness :
    ((7 : Int) * 7) % 8 = 1 ∧
      ∀ (k : Nat) (x : Int), 1 ≤ k → ((7 : Int) * x) % 2 ^ k = 1 →
        ((7 : Int) * wrapS 32 (x * wrapS 32 (2 - wrapS 32 ((7 : Int) * x))))
          % 2 ^ (min (2 * k) 32) = 1 :=
  mulinv_newton 32 7 (Or.inl rfl) (by decide)

/-- The value returned by the loop of `mulinv` is the seed after the counted
number of updates, and the loop test fails on it. -/
theorem mloop_iterate (W : Nat) (d : Int) :
    ∀ (fuel : Nat) (x : Int) (k : Nat) (r : Int × Nat), mloop W d fuel x k = some r →
      k ≤ r.2 ∧ r.1 = Nat.iterate (mnext W d) (r.2 - k) x ∧ wrapS W (d * r.1) = 1 := by
  intro fuel
  induction fuel with
  | zero => intro x k r h; simp [mloop] at h
  | succ f ih =>
    intro x k r h
    rw [mloop] at h
    by_cases ht : wrapS W (d * x) = 1
    · simp only [ne_eq, ht, not_true_eq_false, if_false, Option.some.injEq] at h
      subst h
      exact ⟨le_refl _, by simp, ht⟩
    · simp only [ne_eq, ht, not_false_eq_true, if_true] at h
      obtain ⟨h1, h2, h3⟩ := ih _ _ r h
      refine ⟨by omega, ?_, h3⟩
      rw [h2, show r.2 - k = (r.2 - (k + 1)) + 1 by omega, Function.iterate_succ_apply]
      rfl

/-- A converged iterate is a fixed point of the update. -/
theorem mnext_fixed (W : Nat) (d x : Int) (hW : 2 ≤ W) (ht : wrapS W (d * x) = 1)
    (hx : wrapS W x = x) : mnext W d x = x := by
  unfold mnext
  rw [ht]
  have h1 : wrapS W (2 - 1) = 1 :=
    (wrapS_eq_one_iff W (2 - 1) hW).2 (by norm_num)
  rw [h1, mul_one, hx]

theorem wrapS_idem (W : Nat) (z : Int) (hW : 1 ≤ W) : wrapS W (wrapS W z) = wrapS W z := by
  obtain ⟨h1, h2⟩ := wrapS_range W z hW
  exact wrapS_of_range W _ hW h1 h2

theorem mnext_iterate_range (W : Nat) (d x : Int) (hW : 1 ≤ W) (hx : wrapS W x = x) :
    ∀ n, wrapS W (Nat.iterate (mnext W d) n x) = Nat.iterate (mnext W d) n x := by
  intro n
  cases n with
  | zero => exact hx
  | succ m =>
    rw [Function.iterate_succ_apply']
    exact wrapS_idem W _ hW

/-- The fixed-count iteration agrees with the loop of `mulinv` as soon as
the count is at least the number of updates of the loop. -/
theorem mulinv_eq_fixed (W n N : Nat) (d : Int) (fuel : Nat) (hW : 2 ≤ W) (hd : d % 2 = 1)
    (hlo : -2 ^ (W - 1) ≤ d) (hhi : d < 2 ^ (W - 1))
    (hn : W ≤ 3 * 2 ^ n) (hf : n + 1 ≤ fuel) (hN : n ≤ N) :
    mulinv W fuel d = some (mulinvFixed W N d) := by
  obtain ⟨x, k, h1, _, h3⟩ := mloop_bounded W n d fuel hW hd hn hf
  obtain ⟨_, g2, g3⟩ := mloop_iterate W d fuel d 0 _ h1
  simp only [Nat.sub_zero] at g2 g3
  have hdr : wrapS W d = d := wrapS_of_range W d (by omega) hlo hhi
  have hxr : wrapS W x = x := by
    rw [g2]; exact mnext_iterate_range W d d (by omega) hdr k
  have hfix : mnext W d x = x := mnext_fixed W d x hW g3 hxr
  have e : Nat.iterate (mnext W d) N d = x := by
    rw [show N = (N - k) + k by omega, Function.iterate_add_apply, ← g2]
    exact Function.iterate_fixed hfix _
  unfold mulinv mulinvFixed
  rw [h1, e]
  rfl

/-- C17. For a word size of 32 or 64 bits and every odd `d`: applying the
update `x := x * (2 - d * x)` (with wrap-around) exactly `⌈log2 W⌉` times
from `x0 = d`, that is 5 times at `W = 32` and 6 times at `W = 64`, gives
the value that `mulinv(d)` returns. -/
theorem mulinv_fixed_count (W : Nat) (d : Int) (fuel : Nat) (hW : W = 32 ∨ W = 64)
    (hd : d % 2 = 1) (hlo : -2 ^ (W - 1) ≤ d) (hhi : d < 2 ^ (W - 1)) (hf : 6 ≤ fuel) :
    mulinv W fuel d = some (mulinvFixed W (Nat.clog 2 W) d) ∧
      Nat.clog 2 32 = 5 ∧ Nat.clog 2 64 = 6 := by
  have c32 : Nat.clog 2 32 = 5 := Nat.clog_pow 2 5 (by norm_num)
  have c64 : Nat.clog 2 64 = 6 := Nat.clog_pow 2 6 (by norm_num)
  refine ⟨?_, c32, c64⟩
  rcases hW with h | h
  · subst h
    rw [c32]
    exact mulinv_eq_fixed 32 4 5 d fuel (by norm_num) hd hlo hhi (by norm_num) (by omega)
      (by norm_num)
  · subst h
    rw [c64]
    exact mulinv_eq_fixed 64 5 6 d fuel (by norm_num) hd hlo hhi (by norm_num) (by omega)
      (by norm_num)

theorem mulinv_fixed_count_witness :
    mulinv 32 6 7 = some (mulinvFixed 32 (Nat.clog 2 32) 7) ∧
      Nat.clog 2 32 = 5 ∧ Nat.clog 2 64 = 6 :=
  mulinv_fixed_count 32 7 6 (Or.inl rfl) (by decide) (by decide) (by decide) (by decide)

/-- C18. For a word size of 32 or 64 bits and every odd `d`: `mulinv`
applied to `mulinv(d)` (converted back to `sint_t`) returns the bit pattern
of `d`. -/
theorem mulinv_involution (W : Nat) (d : Int) (fuel : Nat) (hW : W = 32 ∨ W = 64)
    (hd : d % 2 = 1) (hlo : -2 ^ (W - 1) ≤ d) (hhi : d < 2 ^ (W - 1)) (hf : 6 ≤ fuel) :
    ∃ x : Nat, mulinv W fuel d = some x ∧ mulinv W fuel (toS W x) = some (toU W d) := by
  have hn : W ≤ 3 * 2 ^ 5 := by rcases hW with h | h <;> subst h <;> norm_num
  obtain ⟨x, h1, h2, h3⟩ := mulinv_spec W 5 d fuel (by omega) hd hn (by omega)
  refine ⟨x, h1, ?_⟩
  -- `x` is odd, and so is its conversion to `sint_t`
  have hx2 : (2 : Int) ∣ 1 - d * x := dvd_trans (dvd_pow_self 2 (by omega)) h3
  obtain ⟨a, ha⟩ := wrapS_sub_dvd W (x : Int) (by omega)
  have hsx : toS W x = x + 2 ^ W * a := by unfold toS; linarith
  have hT := two_pow_pred W (by omega)
  have hodd : toS W x % 2 = 1 := by
    obtain ⟨c, hc⟩ := hx2
    have hxodd : (x : Int) % 2 = 1 := by
      rcases Int.emod_two_eq_zero_or_one (x : Int) with h | h
      · exfalso
        obtain ⟨j, hj⟩ : ∃ j, (x : Int) = 2 * j := ⟨(x : Int) / 2, by omega⟩
        rw [hj] at hc
        have : (1 : Int) = 2 * (c + d * j) := by linarith
        omega
      · exact h
    rw [hsx, hT]
    have : (x : Int) + 2 * 2 ^ (W - 1) * a = x + 2 * (2 ^ (W - 1) * a) := by ring
    rw [this, Int.add_mul_emod_self_left]
    exact hxodd
  obtain ⟨y, g1, g2, g3⟩ := mulinv_spec W 5 (toS W x) fuel (by omega) hodd hn (by omega)
  rw [g1]
  congr 1
  have hu : (2 : Int) ^ W ∣ 1 - toS W x * (toU W d : Int) := by
    obtain ⟨b, hb⟩ := toU_sub_dvd W d
    obtain ⟨c, hc⟩ := h3
    refine ⟨c - x * b - a * d - 2 ^ W * a * b, ?_⟩
    have e1 : (toU W d : Int) = d + 2 ^ W * b := by linarith
    rw [hsx, e1]
    have : (1 : Int) - (x + 2 ^ W * a) * (d + 2 ^ W * b)
        = (1 - d * x) - 2 ^ W * (x * b + a * d + 2 ^ W * a * b) := by ring
    rw [this, hc]
    ring
  exact (inverse_unique W (toS W x) y (toU W d) g2 (toU_lt W d) g3 hu).symm

theorem mulinv_involution_witness :
    ∃ x : Nat, mulinv 32 6 7 = some x ∧ mulinv 32 6 (toS 32 x) = some (toU 32 7) :=
  mulinv_involution 32 7 6 (Or.inl rfl) (by decide) (by decide) (by decide) (by decide)

theorem mloop_even (W : Nat) (d : Int) (hW : 1 ≤ W) (hd : d % 2 = 0) :
    ∀ (fuel : Nat) (x : Int) (k : Nat), mloop W d fuel x k = none := by
  have hne : ∀ x : Int, wrapS W (d * x) ≠ 1 := by
    intro x h
    obtain ⟨a, ha⟩ := wrapS_sub_dvd W (d * x) hW
    have hT := two_pow_pred W hW
    obtain ⟨j, hj⟩ : ∃ j, d = 2 * j := ⟨d / 2, by omega⟩
    have e1 : d * x = 2 * (j * x) := by rw [hj]; ring
    rw [h, hT] at ha
    have : (1 : Int) = 2 * (j * x + 2 ^ (W - 1) * a) := by linarith
    omega
  intro fuel
  induction fuel with
  | zero => intro x k; rfl
  | succ f ih =>
    intro x k
    rw [mloop]
    simp only [ne_eq, hne x, not_false_eq_true, if_true]
    exact ih _ _

/-- C19. For a word size of 32 or 64 bits and every even `d` (0 included):
`d * xn` is even for every iterate `xn`, so the test `d * xn != 1` of the
loop of `mulinv` never fails: no amount of fuel makes `mulinv` return. -/
theorem mulinv_even_diverges (W : Nat) (d : Int) (hW : W = 32 ∨ W = 64) (hd : d % 2 = 0) :
    (∀ xn : Int, wrapS W (d * xn) % 2 = 0 ∧ wrapS W (d * xn) ≠ 1) ∧
      ∀ fuel : Nat, mulinv W fuel d = none := by
  have hW1 : 1 ≤ W := by omega
  constructor
  · intro x
    obtain ⟨a, ha⟩ := wrapS_sub_dvd W (d * x) hW1
    have hT := two_pow_pred W hW1
    obtain ⟨j, hj⟩ : ∃ j, d = 2 * j := ⟨d / 2, by omega⟩
    have e : wrapS W (d * x) = 2 * (j * x + 2 ^ (W - 1) * a) := by
      have e1 : d * x = 2 * (j * x) := by rw [hj]; ring
      rw [hT] at ha
      linarith
    rw [e]
    constructor
    · exact Int.mul_emod_right 2 _
    · omega
  · intro fuel
    unfold mulinv
    rw [mloop_even W d hW1 hd]
    rfl

theorem mulinv_even_diverges_witness :
    (∀ xn : Int, wrapS 32 ((6 : Int) * xn) % 2 = 0 ∧ wrapS 32 ((6 : Int) * xn) ≠ 1) ∧
      ∀ fuel : Nat, mulinv 32 fuel 6 = none :=
  mulinv_even_diverges 32 6 (Or.inl rfl) (by decide)

/-- C20. For a word size of 32 or 64 bits: `main` passes `d = 1` and
`d = -1` to `divmagic`, and there the loop ends after a single iteration
(no result without fuel, the result with one unit or more) with
`(M, s) = (1, 0)` for `d = 1` and `(M, s) = (-1, 0)` for `d = -1`. -/
theorem divmagic_unit (W fuel : Nat) (hW : W = 32 ∨ W = 64) (hf : 1 ≤ fuel) :
    mainCalls W 2 1 1 = [1] ∧ mainCalls W 2 (-1) (-1) = [-1] ∧
      divmagic W 0 1 = none ∧ divmagic W 0 (-1) = none ∧
      divmagic W fuel 1 = some { M := 1, s := 0 } ∧
      divmagic W fuel (-1) = some { M := -1, s := 0 } := by
  rcases hW with h | h
  · subst h
    exact ⟨by decide, by decide, rfl, rfl, divmagic_mono 32 1 fuel 1 _ hf (by decide),
      divmagic_mono 32 1 fuel (-1) _ hf (by decide)⟩
  · subst h
    exact ⟨by decide, by decide, rfl, rfl, divmagic_mono 64 1 fuel 1 _ hf (by decide),
      divmagic_mono 64 1 fuel (-1) _ hf (by decide)⟩

theorem divmagic_unit_witness :
    mainCalls 32 2 1 1 = [1] ∧ mainCalls 32 2 (-1) (-1) = [-1] ∧
      divmagic 32 0 1 = none ∧ divmagic 32 0 (-1) = none ∧
      divmagic 32 1 1 = some { M := 1, s := 0 } ∧
      divmagic 32 1 (-1) = some { M := -1, s := 0 } :=
  divmagic_unit 32 1 (Or.inl rfl) (by decide)

end Divmagic
